import Mathlib

/-!
Verification development for the teacher-helper document-to-chunk pipeline.

This file gives a shallow embedding, in Lean, of the chunking service
(packages/api/src/services/chunking.service.ts) and the section builder of the
PDF parser service (packages/api/src/services/pdf-parser.service.ts), and
proves properties of that embedding.

Modelling conventions:
- JavaScript strings are Lean `String`s; the inputs exercised are ASCII, where
  JS UTF-16 code-unit length coincides with `String.length`.
- The regular-expression splits used by the source
  (`/\n\s*\n/`, `/(?<=[.!?])\s+/`, `/\s+/`, `'\n'`) are implemented as
  character-level state machines with JS `String.split` semantics
  (leading/trailing empty fields included where JS produces them).
- The token counter of the source delegates to the external `gpt-tokenizer`
  package and falls back to `ceil(length / 4)` when that tokenizer throws.
  The tokenizer is an external collaborator, not code of this repository; it
  is modelled by the repository's own declared approximation
  `ceil(length / 4)` (with `countTokens "" = 0`, as in the source).
- `generateHash` in the source is the hex-encoded SHA-256 digest from node's
  `crypto` module, again an external collaborator.  The service relies only on
  it being a deterministic (practically injective) function of the text, so it
  is modelled by an injective function of the text.
- Mutable accumulators of the source become explicit fold states; the
  `ChunkingStats` object threaded through the source becomes an explicitly
  passed value.
-/

set_option autoImplicit false

namespace TeacherHelper

/-! ## Character classes and basic string utilities -/

/-- JS `\s` character class, restricted to the characters that can occur in
the ASCII/latin inputs under consideration (space, tab, newline, carriage
return, vertical tab, form feed, no-break space, BOM). -/
def isJsWs (c : Char) : Bool :=
  c = ' ' || c = '\t' || c = '\n' || c = '\r' || c = '\u000b' || c = '\u000c' ||
  c = '\u00a0' || c = '\ufeff'

/-- JS `String.prototype.trim` on the character list. -/
def jsTrimList (l : List Char) : List Char :=
  ((l.dropWhile isJsWs).reverse.dropWhile isJsWs).reverse

/-- JS `String.prototype.trim`. -/
def jsTrim (s : String) : String :=
  String.mk (jsTrimList s.data)

/-- JS `String.prototype.split('\n')`. -/
def splitLinesList : List Char → List (List Char)
  | [] => [[]]
  | c :: rest =>
    match splitLinesList rest with
    | [] => [[c]]
    | h :: t => if c = '\n' then [] :: h :: t else (c :: h) :: t

/-- Lines of a JS string, as produced by `text.split('\n')`. -/
def splitLines (s : String) : List String :=
  (splitLinesList s.data).map String.mk

/-- State of the `/\s+/` splitter: inside a field (reversed accumulator) or
inside a whitespace separator run. -/
inductive WsState where
  | field (acc : List Char)
  | sep
  deriving Repr

/-- JS `String.prototype.split(/\s+/)` as a character-level state machine.
A maximal whitespace run is one separator; a leading or trailing run produces
an empty field, exactly as in JS. -/
def splitWsImpl : List Char → WsState → List (List Char)
  | [], .field acc => [acc.reverse]
  | [], .sep => [[]]
  | c :: rest, .field acc =>
    if isJsWs c then acc.reverse :: splitWsImpl rest .sep
    else splitWsImpl rest (.field (c :: acc))
  | c :: rest, .sep =>
    if isJsWs c then splitWsImpl rest .sep
    else splitWsImpl rest (.field [c])

/-- JS `text.split(/\s+/)`. -/
def splitWhitespace (s : String) : List String :=
  (splitWsImpl s.data (.field [])).map String.mk

/-- Does an optional previous character end a sentence (`[.!?]`)? -/
def isSentTerm : Option Char → Bool
  | some c => c = '.' || c = '!' || c = '?'
  | none => false

/-- State of the `/(?<=[.!?])\s+/` splitter: inside a field (with the
character immediately before the scan position, for the lookbehind) or inside
a separator whitespace run. -/
inductive SentState where
  | field (prev : Option Char) (acc : List Char)
  | sep
  deriving Repr

/-- JS `String.prototype.split(/(?<=[.!?])\s+/)`: a maximal whitespace run
preceded by sentence-terminal punctuation is one separator. -/
def splitSentImpl : List Char → SentState → List (List Char)
  | [], .field _ acc => [acc.reverse]
  | [], .sep => [[]]
  | c :: rest, .field prev acc =>
    if isSentTerm prev && isJsWs c then acc.reverse :: splitSentImpl rest .sep
    else splitSentImpl rest (.field (some c) (c :: acc))
  | c :: rest, .sep =>
    if isJsWs c then splitSentImpl rest .sep
    else splitSentImpl rest (.field (some c) [c])

/-- Analysis of a completed whitespace run for the `/\n\s*\n/` splitter.
The regex matches inside a whitespace run exactly when the run contains at
least two newlines; the (leftmost, greedy, backtracking) match then extends
from the run's first newline to its last newline.  Returns the whitespace
kept before the match and after the match, or `none` when the run contains no
match. -/
def splitRunSep (run : List Char) : Option (List Char × List Char) :=
  if 2 ≤ (run.filter (fun c => c = '\n')).length then
    some (run.takeWhile (fun c => c ≠ '\n'),
          (run.reverse.takeWhile (fun c => c ≠ '\n')).reverse)
  else none

/-- State of the `/\n\s*\n/` splitter: inside a field, or buffering a
whitespace run (both accumulators reversed). -/
inductive ParaState where
  | field (acc : List Char)
  | run (racc : List Char) (acc : List Char)
  deriving Repr

/-- JS `String.prototype.split(/\n\s*\n/)` as a character-level state
machine; whitespace runs are buffered and resolved by `splitRunSep`. -/
def splitParaImpl : List Char → ParaState → List (List Char)
  | [], .field acc => [acc.reverse]
  | [], .run racc acc =>
    (match splitRunSep racc.reverse with
     | some (pre, post) => [acc.reverse ++ pre, post]
     | none => [acc.reverse ++ racc.reverse])
  | c :: rest, .field acc =>
    if isJsWs c then splitParaImpl rest (.run [c] acc)
    else splitParaImpl rest (.field (c :: acc))
  | c :: rest, .run racc acc =>
    if isJsWs c then splitParaImpl rest (.run (c :: racc) acc)
    else
      match splitRunSep racc.reverse with
      | some (pre, post) =>
        (acc.reverse ++ pre) :: splitParaImpl rest (.field (c :: post.reverse))
      | none => splitParaImpl rest (.field (c :: (racc ++ acc)))

/-- JS `text.split(/\n\s*\n/)`. -/
def splitBlankLine (s : String) : List String :=
  (splitParaImpl s.data (.field [])).map String.mk

/-! ## Data model (packages/shared/src/types) -/

/-- A page extracted from a PDF (shared `PDFPage`). -/
structure PDFPage where
  pageNumber : Nat
  text : String
  characterCount : Nat
  deriving Repr, DecidableEq

/-- A detected heading (shared `PDFHeading`). -/
structure PDFHeading where
  text : String
  level : Nat
  pageNumber : Nat
  position : Nat
  deriving Repr, DecidableEq

/-- A document section (shared `PDFSection`); `heading` is optional in the
source (`heading?: string`). -/
structure PDFSection where
  heading : Option String
  level : Nat
  pageStart : Nat
  pageEnd : Nat
  text : String
  deriving Repr, DecidableEq

/-- A parsed document (shared `ParsedPDF`), restricted to the fields the
chunking service reads; the metadata fields it never touches are omitted. -/
structure ParsedPDF where
  fullText : String
  pages : List PDFPage
  headings : List PDFHeading
  sections : List PDFSection
  deriving Repr, DecidableEq

/-- Chunking configuration (shared `ChunkingConfig`). -/
structure ChunkingConfig where
  minTokens : Nat
  maxTokens : Nat
  targetTokens : Nat
  overlapTokens : Nat
  respectSectionBoundaries : Bool
  deriving Repr, DecidableEq

/-- `DEFAULT_CHUNKING_CONFIG` from the shared package. -/
def DEFAULT_CHUNKING_CONFIG : ChunkingConfig :=
  { minTokens := 300, maxTokens := 800, targetTokens := 500,
    overlapTokens := 50, respectSectionBoundaries := true }

/-- `Partial<ChunkingConfig>`: every field optional, as used for per-call
overrides. -/
structure PartialChunkingConfig where
  minTokens : Option Nat := none
  maxTokens : Option Nat := none
  targetTokens : Option Nat := none
  overlapTokens : Option Nat := none
  respectSectionBoundaries : Option Bool := none
  deriving Repr, DecidableEq

/-- JS object spread `{ ...base, ...override }` for configurations (an absent
override key leaves the base value). -/
def mergeConfig (base : ChunkingConfig) : Option PartialChunkingConfig → ChunkingConfig
  | none => base
  | some o =>
    { minTokens := o.minTokens.getD base.minTokens,
      maxTokens := o.maxTokens.getD base.maxTokens,
      targetTokens := o.targetTokens.getD base.targetTokens,
      overlapTokens := o.overlapTokens.getD base.overlapTokens,
      respectSectionBoundaries := o.respectSectionBoundaries.getD base.respectSectionBoundaries }

/-- Input of `chunkDocument` (shared `ChunkingInput`); `parsedPdf` is optional
because the source guards `if (!input.parsedPdf)`. -/
structure ChunkingInput where
  bookId : String
  parsedPdf : Option ParsedPDF
  config : Option PartialChunkingConfig
  deriving Repr, DecidableEq

/-- Location and context metadata of a chunk (shared `ChunkMetadata`).  The
source's field `section` is a reserved word here and is named
`sectionTitle`. -/
structure ChunkMetadata where
  chapter : Option String := none
  sectionTitle : Option String := none
  pageStart : Option Nat := none
  pageEnd : Option Nat := none
  headingContext : Option String := none
  deriving Repr, DecidableEq

/-- A produced chunk (shared `ChunkData`). -/
structure ChunkData where
  text : String
  tokenCount : Nat
  sequence : Nat
  hash : String
  metadata : ChunkMetadata
  deriving Repr, DecidableEq

/-- Aggregate counters (shared `ChunkingStats`). -/
structure ChunkingStats where
  totalChunks : Nat
  averageTokens : Nat
  minTokens : Nat
  maxTokens : Nat
  totalTokens : Nat
  paragraphsProcessed : Nat
  sectionsProcessed : Nat
  mergeCount : Nat
  splitCount : Nat
  deriving Repr, DecidableEq

/-- Error codes (shared `ChunkingErrorCode`). -/
inductive ChunkingErrorCode where
  | EMPTY_DOCUMENT
  | NO_TEXT_CONTENT
  | INVALID_CONFIG
  | TOKENIZATION_ERROR
  | UNKNOWN_ERROR
  deriving Repr, DecidableEq

/-- Error descriptor (shared `ChunkingError`). -/
structure ChunkingError where
  code : ChunkingErrorCode
  message : String
  details : Option String
  deriving Repr, DecidableEq

/-- Result of `chunkDocument` (shared `ChunkingResult`). -/
structure ChunkingResult where
  success : Bool
  chunks : List ChunkData
  stats : ChunkingStats
  config : ChunkingConfig
  error : Option ChunkingError
  deriving Repr, DecidableEq

/-- A text accumulation segment (shared `TextSegment`). -/
structure TextSegment where
  text : String
  tokenCount : Nat
  pageNumbers : List Nat
  headingContext : Option String
  deriving Repr, DecidableEq

/-- A text fragment produced by the word-level splitter (the source's
inline `{ text: string; tokenCount: number }`). -/
structure TextFrag where
  text : String
  tokenCount : Nat
  deriving Repr, DecidableEq

/-! ## Tokenizer, hashing, shared helpers (chunking.service.ts) -/

/-- The paragraph separator `PARA_SEP = '\n\n'`. -/
def PARA_SEP : String := "\n\n"

/-- `countTokens`: `if (!text) return 0;` then the token count of the
external tokenizer, modelled by the repository's declared fallback
approximation `Math.ceil(text.length / 4)`. -/
def countTokens (text : String) : Nat :=
  if text = "" then 0 else (text.length + 3) / 4

/-- `generateHash`: hex-encoded SHA-256 of the text (external `crypto`
collaborator), modelled as an injective deterministic function of the
text — the only properties of the digest the service relies on. -/
def generateHash (text : String) : String :=
  "sha256:" ++ text

/-- JS `a || b` for optional strings (an empty string is falsy). -/
def jsOrStr (a b : Option String) : Option String :=
  match a with
  | some s => if s = "" then b else some s
  | none => b

/-- JS `a || b` for optional numbers (`0` is falsy). -/
def jsOrNat (a b : Option Nat) : Option Nat :=
  match a with
  | some 0 => b
  | some n => some n
  | none => b

/-- `splitIntoParagraphs`: split on `/\n\s*\n/`, trim, drop empties. -/
def splitIntoParagraphs (text : String) : List String :=
  ((splitBlankLine text).map jsTrim).filter (fun p => p ≠ "")

/-- `splitIntoSentences`: split on `/(?<=[.!?])\s+/`, trim, drop empties;
when nothing remains, the whole text is one sentence. -/
def splitIntoSentences (text : String) : List String :=
  let s := (((splitSentImpl text.data (.field none [])).map String.mk).map jsTrim).filter
    (fun x => x ≠ "")
  if s.length > 0 then s else [text]

/-- `createChunk`: trims the segment text, keeps the segment's token count
unless it is falsy (0), hashes the trimmed text, copies the metadata with
the segment's heading context taking precedence. -/
def createChunk (seg : TextSegment) (meta : ChunkMetadata) (seq : Nat) : ChunkData :=
  let t := jsTrim seg.text
  { text := t,
    tokenCount := if seg.tokenCount = 0 then countTokens t else seg.tokenCount,
    sequence := seq,
    hash := generateHash t,
    metadata := { meta with headingContext := jsOrStr seg.headingContext meta.headingContext } }

/-! ## Word-level splitter (`splitByWords`) -/

/-- Accumulator of `splitByWords`: emitted fragments, current word buffer
`cw`, running token estimate `ct`. -/
structure WordAcc where
  chunks : List TextFrag
  cw : List String
  ct : Nat
  deriving Repr, DecidableEq

/-- One iteration of the `splitByWords` loop.  Empty words are skipped.
When the additive estimate `ct + wt (+1)` would exceed `targetTokens` and the
buffer is non-empty, the buffer is emitted (token count recomputed on the
joined text) and the next buffer is seeded with the last
`max(1, floor((overlapTokens / targetTokens) * cw.length))` buffer words; the
quotient is exact for the ratios exercised here, so the JS float expression
is modelled by natural division. -/
def splitByWordsStep (config : ChunkingConfig) (acc : WordAcc) (w : String) : WordAcc :=
  if w = "" then acc
  else
    let wt := countTokens w
    let nt := acc.ct + wt + (if acc.cw.length > 0 then 1 else 0)
    if nt > config.targetTokens ∧ acc.cw.length > 0 then
      let tx := String.intercalate " " acc.cw
      let olc := max 1 ((config.overlapTokens * acc.cw.length) / config.targetTokens)
      let cw := (acc.cw.drop (acc.cw.length - olc)) ++ [w]
      { chunks := acc.chunks ++ [⟨tx, countTokens tx⟩],
        cw := cw,
        ct := countTokens (String.intercalate " " cw) }
    else
      { acc with cw := acc.cw ++ [w], ct := nt }

/-- `splitByWords`: fold the words of the text (split on `/\s+/`) through
`splitByWordsStep`, then flush a non-empty final buffer. -/
def splitByWords (text : String) (config : ChunkingConfig) : List TextFrag :=
  let acc := (splitWhitespace text).foldl (splitByWordsStep config) ⟨[], [], 0⟩
  if acc.cw.length > 0 then
    acc.chunks ++ [⟨String.intercalate " " acc.cw,
                    countTokens (String.intercalate " " acc.cw)⟩]
  else acc.chunks

/-! ## Sentence-level splitter (`splitLargeParagraph`) -/

/-- Accumulator of `splitLargeParagraph`: emitted chunks, the sentence
buffer (text and token count), the running sequence number, the threaded
stats. -/
structure SentAcc where
  chunks : List ChunkData
  curText : String
  curTok : Nat
  seq : Nat
  stats : ChunkingStats
  deriving Repr, DecidableEq

/-- Flush the sentence buffer of a `SentAcc` when it meets `minTokens`
(shared by two branches of the loop body). -/
def sentFlush (config : ChunkingConfig) (meta : ChunkMetadata) (acc : SentAcc) : SentAcc :=
  if acc.curTok ≥ config.minTokens then
    { acc with
      chunks := acc.chunks ++
        [createChunk ⟨acc.curText, acc.curTok, [], meta.headingContext⟩ meta acc.seq],
      seq := acc.seq + 1,
      stats := { acc.stats with totalTokens := acc.stats.totalTokens + acc.curTok } }
  else acc

/-- Emit one word-splitter fragment as a chunk (the body of the `for wc of
this.splitByWords(...)` loop). -/
def sentWordChunkStep (meta : ChunkMetadata) (a : SentAcc) (wc : TextFrag) : SentAcc :=
  { a with
    chunks := a.chunks ++
      [createChunk ⟨wc.text, wc.tokenCount, [], meta.headingContext⟩ meta a.seq],
    seq := a.seq + 1,
    stats := { a.stats with totalTokens := a.stats.totalTokens + wc.tokenCount } }

/-- One iteration of the `splitLargeParagraph` sentence loop.  An over-max
sentence flushes a sufficient buffer and is word-split; otherwise the
sentence is appended to the buffer or, on overflow, the buffer is flushed
when sufficient (and silently replaced otherwise) and restarted from the
sentence. -/
def splitLargeParagraphStep (config : ChunkingConfig) (meta : ChunkMetadata)
    (acc : SentAcc) (s : String) : SentAcc :=
  let st := countTokens s
  if st > config.maxTokens then
    let acc1 := sentFlush config meta acc
    let acc2 := (splitByWords s config).foldl (sentWordChunkStep meta) acc1
    { acc2 with curText := "", curTok := 0 }
  else
    let ct := if acc.curTok > 0 then countTokens (acc.curText ++ " " ++ s) else st
    if ct > config.maxTokens then
      let acc1 := sentFlush config meta acc
      { acc1 with curText := s, curTok := st }
    else
      { acc with curText := if acc.curText ≠ "" then acc.curText ++ " " ++ s else s,
                 curTok := ct }

/-- `splitLargeParagraph`: split the text into sentences, reduce them with
`splitLargeParagraphStep`, flush a non-empty final buffer.  Returns the
produced chunks and the updated stats. -/
def splitLargeParagraph (text : String) (config : ChunkingConfig) (stats : ChunkingStats)
    (meta : ChunkMetadata) (startSeq : Nat) : List ChunkData × ChunkingStats :=
  let acc := (splitIntoSentences text).foldl (splitLargeParagraphStep config meta)
    ⟨[], "", 0, startSeq, stats⟩
  if acc.curTok > 0 then
    (acc.chunks ++ [createChunk ⟨acc.curText, acc.curTok, [], meta.headingContext⟩ meta acc.seq],
     { acc.stats with totalTokens := acc.stats.totalTokens + acc.curTok })
  else (acc.chunks, acc.stats)

/-! ## Section strategy (`processSection`, `chunkBySections`) -/

/-- The per-section chunk metadata computed at the top of `processSection`. -/
def sectionMeta (sec : PDFSection) : ChunkMetadata :=
  { chapter := if sec.level = 1 then sec.heading else none,
    sectionTitle := if 1 < sec.level then sec.heading else none,
    pageStart := some sec.pageStart,
    pageEnd := some sec.pageEnd,
    headingContext := sec.heading }

/-- The freshly reset accumulation segment used by `processSection`. -/
def freshSeg (sec : PDFSection) : TextSegment :=
  ⟨"", 0, [sec.pageStart], sec.heading⟩

/-- Accumulator of the `processSection` paragraph loop. -/
structure SectionAcc where
  chunks : List ChunkData
  cur : TextSegment
  seq : Nat
  stats : ChunkingStats
  deriving Repr, DecidableEq

/-- One iteration of the `processSection` paragraph loop, mirroring the
source: over-max paragraphs are split (with the merge-ahead attempt that
prepends a small leftover buffer onto the first fragment — rewriting its
text and token count but, like the source, not its hash); otherwise the
paragraph is appended, or the buffer flushed when it meets the minimum, or
force-appended when it does not. -/
def processSectionStep (sec : PDFSection) (config : ChunkingConfig) (meta : ChunkMetadata)
    (acc : SectionAcc) (p : String) : SectionAcc :=
  let acc := { acc with stats :=
    { acc.stats with paragraphsProcessed := acc.stats.paragraphsProcessed + 1 } }
  let tp := jsTrim p
  if tp = "" then acc
  else
    let pt := countTokens tp
    if pt > config.maxTokens then
      let acc1 :=
        if acc.cur.tokenCount ≥ config.minTokens then
          { acc with chunks := acc.chunks ++ [createChunk acc.cur meta acc.seq],
                     cur := freshSeg sec, seq := acc.seq + 1 }
        else acc
      let scp := splitLargeParagraph tp config acc1.stats meta acc1.seq
      let stats2 := { scp.2 with splitCount := scp.2.splitCount + 1 }
      match scp.1 with
      | [] =>
        { chunks := acc1.chunks, cur := acc1.cur, seq := acc1.seq, stats := stats2 }
      | sc0 :: srest =>
        if acc1.cur.tokenCount > 0 then
          let ct := acc1.cur.text ++ PARA_SEP ++ sc0.text
          let cto := countTokens ct
          if cto ≤ config.maxTokens then
            { chunks := acc1.chunks ++ ({ sc0 with text := ct, tokenCount := cto } :: srest),
              cur := freshSeg sec,
              seq := acc1.seq + (sc0 :: srest).length,
              stats := stats2 }
          else
            { chunks := (acc1.chunks ++ [createChunk acc1.cur meta acc1.seq]) ++ (sc0 :: srest),
              cur := freshSeg sec,
              seq := (acc1.seq + 1) + (sc0 :: srest).length,
              stats := stats2 }
        else
          { chunks := acc1.chunks ++ (sc0 :: srest),
            cur := acc1.cur,
            seq := acc1.seq + (sc0 :: srest).length,
            stats := stats2 }
    else
      let ct := if acc.cur.tokenCount > 0 then countTokens (acc.cur.text ++ PARA_SEP ++ tp) else pt
      if ct > config.maxTokens then
        if acc.cur.tokenCount ≥ config.minTokens then
          { acc with chunks := acc.chunks ++ [createChunk acc.cur meta acc.seq],
                     cur := ⟨tp, pt, [sec.pageStart], sec.heading⟩,
                     seq := acc.seq + 1 }
        else
          { acc with cur := { acc.cur with
              text := if acc.cur.text ≠ "" then acc.cur.text ++ PARA_SEP ++ tp else tp,
              tokenCount := ct } }
      else
        { acc with cur := { acc.cur with
            text := if acc.cur.text ≠ "" then acc.cur.text ++ PARA_SEP ++ tp else tp,
            tokenCount := ct } }

/-- `processSection`: reduce the section's paragraphs, then flush a
non-empty buffer. -/
def processSection (sec : PDFSection) (config : ChunkingConfig) (stats : ChunkingStats)
    (startSeq : Nat) : List ChunkData × ChunkingStats :=
  let meta := sectionMeta sec
  let acc := (splitIntoParagraphs sec.text).foldl (processSectionStep sec config meta)
    ⟨[], freshSeg sec, startSeq, stats⟩
  if acc.cur.tokenCount > 0 then
    (acc.chunks ++ [createChunk acc.cur (sectionMeta sec) acc.seq], acc.stats)
  else (acc.chunks, acc.stats)

/-- Accumulator of `chunkBySections`. -/
structure SectionsAcc where
  chunks : List ChunkData
  seq : Nat
  stats : ChunkingStats
  deriving Repr, DecidableEq

/-- `chunkBySections`: process every section in order, threading the
sequence counter and the stats (`sectionsProcessed` incremented per
section). -/
def chunkBySections (pdf : ParsedPDF) (config : ChunkingConfig) (stats : ChunkingStats) :
    List ChunkData × ChunkingStats :=
  let acc := pdf.sections.foldl (fun (acc : SectionsAcc) sec =>
    let stats1 := { acc.stats with sectionsProcessed := acc.stats.sectionsProcessed + 1 }
    let csp := processSection sec config stats1 acc.seq
    { chunks := acc.chunks ++ csp.1, seq := acc.seq + csp.1.length, stats := csp.2 }) ⟨[], 0, stats⟩
  (acc.chunks, acc.stats)

/-! ## Page strategy (`chunkByPages`) -/

/-- The metadata given to chunks flushed from the page-strategy buffer
(`pageStart`/`pageEnd` are `undefined` when the buffer has no pages). -/
def pagesMeta (cur : TextSegment) : ChunkMetadata :=
  { pageStart := cur.pageNumbers.head?, pageEnd := cur.pageNumbers.getLast? }

/-- Accumulator of the `chunkByPages` loops. -/
structure PageAcc where
  chunks : List ChunkData
  cur : TextSegment
  seq : Nat
  stats : ChunkingStats
  deriving Repr, DecidableEq

/-- One iteration of the inner `chunkByPages` paragraph loop.  Unlike
`processSection` there is no merge-ahead; an overflowing buffer below the
minimum is silently replaced. -/
def chunkByPagesStep (config : ChunkingConfig) (pg : PDFPage) (acc : PageAcc) (p : String) :
    PageAcc :=
  let acc := { acc with stats :=
    { acc.stats with paragraphsProcessed := acc.stats.paragraphsProcessed + 1 } }
  let tp := jsTrim p
  if tp = "" then acc
  else
    let pt := countTokens tp
    if pt > config.maxTokens then
      let acc1 :=
        if acc.cur.tokenCount ≥ config.minTokens then
          { acc with chunks := acc.chunks ++ [createChunk acc.cur (pagesMeta acc.cur) acc.seq],
                     seq := acc.seq + 1 }
        else acc
      let scp := splitLargeParagraph tp config acc1.stats
        ⟨none, none, some pg.pageNumber, some pg.pageNumber, none⟩ acc1.seq
      { chunks := acc1.chunks ++ scp.1,
        cur := ⟨"", 0, [], none⟩,
        seq := acc1.seq + scp.1.length,
        stats := { scp.2 with splitCount := scp.2.splitCount + 1 } }
    else
      let ct := if acc.cur.tokenCount > 0 then countTokens (acc.cur.text ++ PARA_SEP ++ tp) else pt
      if ct > config.maxTokens then
        let acc1 :=
          if acc.cur.tokenCount ≥ config.minTokens then
            { acc with chunks := acc.chunks ++ [createChunk acc.cur (pagesMeta acc.cur) acc.seq],
                       seq := acc.seq + 1 }
          else acc
        { acc1 with cur := ⟨tp, pt, [pg.pageNumber], none⟩ }
      else
        { acc with cur := { acc.cur with
            text := if acc.cur.text ≠ "" then acc.cur.text ++ PARA_SEP ++ tp else tp,
            tokenCount := ct,
            pageNumbers := if acc.cur.pageNumbers.contains pg.pageNumber then acc.cur.pageNumbers
                           else acc.cur.pageNumbers ++ [pg.pageNumber] } }

/-- `chunkByPages`: reduce the paragraphs of every page in order, then
flush a non-empty buffer. -/
def chunkByPages (pdf : ParsedPDF) (config : ChunkingConfig) (stats : ChunkingStats) :
    List ChunkData × ChunkingStats :=
  let acc := pdf.pages.foldl
    (fun acc pg => (splitIntoParagraphs pg.text).foldl (chunkByPagesStep config pg) acc)
    ⟨[], ⟨"", 0, [], none⟩, 0, stats⟩
  if acc.cur.tokenCount > 0 then
    (acc.chunks ++ [createChunk acc.cur (pagesMeta acc.cur) acc.seq], acc.stats)
  else (acc.chunks, acc.stats)

/-! ## Merger (`mergeSmallChunks`) -/

/-- Accumulator of the merger pass. -/
structure MergeAcc where
  merged : List ChunkData
  cur : Option ChunkData
  stats : ChunkingStats
  deriving Repr, DecidableEq

/-- One iteration of the merger loop: an under-minimum `cur` absorbs the
next chunk when the recomputed combined count fits `maxTokens` (text,
token count and hash recomputed, `pageEnd` taken from the absorbed chunk
when truthy); otherwise `cur` is emitted unchanged and restarted from the
next chunk. -/
def mergeStep (config : ChunkingConfig) (acc : MergeAcc) (ch : ChunkData) : MergeAcc :=
  match acc.cur with
  | none => { acc with cur := some ch }
  | some cur =>
    if cur.tokenCount < config.minTokens then
      let ct := cur.text ++ PARA_SEP ++ ch.text
      let cto := countTokens ct
      if cto ≤ config.maxTokens then
        let cur' : ChunkData :=
          { cur with
            text := ct,
            tokenCount := cto,
            hash := generateHash ct,
            metadata := { cur.metadata with
              pageEnd := jsOrNat ch.metadata.pageEnd cur.metadata.pageEnd } }
        { merged := acc.merged, cur := some cur',
          stats := { acc.stats with mergeCount := acc.stats.mergeCount + 1 } }
      else
        { merged := acc.merged ++ [cur], cur := some ch,
          stats := { acc.stats with totalTokens := acc.stats.totalTokens + cur.tokenCount } }
    else
      { merged := acc.merged ++ [cur], cur := some ch,
        stats := { acc.stats with totalTokens := acc.stats.totalTokens + cur.tokenCount } }

/-- `mergeSmallChunks`: identity on fewer than two chunks; otherwise a
single left-to-right pass, always flushing the final `cur`. -/
def mergeSmallChunks (chunks : List ChunkData) (config : ChunkingConfig) (stats : ChunkingStats) :
    List ChunkData × ChunkingStats :=
  if chunks.length < 2 then (chunks, stats)
  else
    let acc := chunks.foldl (mergeStep config) ⟨[], none, stats⟩
    match acc.cur with
    | some cur => (acc.merged ++ [cur],
        { acc.stats with totalTokens := acc.stats.totalTokens + cur.tokenCount })
    | none => (acc.merged, acc.stats)

/-! ## Sequencer, stats finalization, `chunkDocument` -/

/-- The final renumbering pass `chunks.map((c, i) => ({ ...c, sequence: i }))`,
written with an explicit index. -/
def renumberFrom (i : Nat) : List ChunkData → List ChunkData
  | [] => []
  | c :: cs => { c with sequence := i } :: renumberFrom (i + 1) cs

/-- The final renumbering pass, starting at index 0. -/
def renumber (chunks : List ChunkData) : List ChunkData :=
  renumberFrom 0 chunks

/-- `Math.min(...xs)` over a non-empty spread (0 for an empty list, which
the source never reaches). -/
def listMin : List Nat → Nat
  | [] => 0
  | x :: xs => xs.foldl min x

/-- `Math.max(...xs)` over a non-empty spread. -/
def listMax : List Nat → Nat
  | [] => 0
  | x :: xs => xs.foldl max x

/-- The stats fields recomputed at the end of `chunkDocument`.
`Math.round(totalTokens / n)` (round half toward positive infinity) is
`(2 * totalTokens + n) / (2 * n)` on naturals. -/
def finalizeStats (stats : ChunkingStats) (chunks : List ChunkData) : ChunkingStats :=
  let s := { stats with totalChunks := chunks.length }
  if chunks.length > 0 then
    { s with
      averageTokens := (2 * s.totalTokens + chunks.length) / (2 * chunks.length),
      minTokens := listMin (chunks.map (·.tokenCount)),
      maxTokens := listMax (chunks.map (·.tokenCount)) }
  else { s with minTokens := 0 }

/-- The freshly allocated stats of a `chunkDocument` call.  The source
initializes `minTokens` to `Infinity`, but that initializer is overwritten
on every return path (by the minimum over the chunks, or by 0), so any
initializer is observationally equivalent; 0 is used here. -/
def initialStats : ChunkingStats :=
  ⟨0, 0, 0, 0, 0, 0, 0, 0, 0⟩

/-- `createError`: a structured failure result carrying the service's own
configuration and zeroed stats. -/
def createError (svcConfig : ChunkingConfig) (code : ChunkingErrorCode) (message : String)
    (details : Option String) : ChunkingResult :=
  { success := false, chunks := [], stats := ⟨0, 0, 0, 0, 0, 0, 0, 0, 0⟩,
    config := svcConfig, error := some ⟨code, message, details⟩ }

/-- The strategy selection and merge pass of `chunkDocument` (the part
between validation and renumbering). -/
def chunkPipeline (config : ChunkingConfig) (pdf : ParsedPDF) :
    List ChunkData × ChunkingStats :=
  let rs :=
    if config.respectSectionBoundaries ∧ pdf.sections.length > 0 then
      chunkBySections pdf config initialStats
    else chunkByPages pdf config initialStats
  mergeSmallChunks rs.1 config rs.2

/-- `chunkDocument`: merge the per-call override onto the service config,
validate the input, run the selected strategy, merge, renumber, finalize
stats.  The source wraps the body in try/catch; the model is total, so the
catch branch (`UNKNOWN_ERROR`) is unreachable. -/
def chunkDocument (svcConfig : ChunkingConfig) (input : ChunkingInput) : ChunkingResult :=
  let config := mergeConfig svcConfig input.config
  match input.parsedPdf with
  | none => createError svcConfig .EMPTY_DOCUMENT "No parsed PDF provided" none
  | some pdf =>
    if jsTrim pdf.fullText = "" then
      createError svcConfig .NO_TEXT_CONTENT "Parsed PDF has no text" none
    else
      let mp := chunkPipeline config pdf
      let chunks := renumber mp.1
      { success := true, chunks := chunks, stats := finalizeStats mp.2 chunks,
        config := config, error := none }

/-! ## Section builder (pdf-parser.service.ts, `buildSections`) -/

/-- The text contributed by one page of a section: the first page is
stripped of the heading's own line when that line is found verbatim
(trimmed), the last page is cut before the next heading's line when found,
and in either case the whole page text is used as a fallback when the line
cannot be located; middle pages are appended whole. -/
def sectionPageText (heading : PDFHeading) (nextHeading : Option PDFHeading)
    (pageStart pageEnd : Nat) (page : PDFPage) : String :=
  if page.pageNumber = pageStart then
    let lines := splitLines page.text
    match lines.findIdx? (fun l => jsTrim l == heading.text) with
    | some idx => String.intercalate "\n" (lines.drop (idx + 1))
    | none => page.text
  else if page.pageNumber = pageEnd ∧ nextHeading.isSome then
    match nextHeading with
    | some nh =>
      let lines := splitLines page.text
      "\n" ++ (match lines.findIdx? (fun l => jsTrim l == nh.text) with
               | some idx => String.intercalate "\n" (lines.take idx)
               | none => page.text)
    | none => "\n" ++ page.text
  else "\n" ++ page.text

/-- The section built for one heading: spans from the heading's page to the
next heading's page (or the document's last page), assembling the text of
the pages in that range. -/
def mkSection (pages : List PDFPage) (heading : PDFHeading) (nextHeading : Option PDFHeading) :
    PDFSection :=
  let pageStart := heading.pageNumber
  let pageEnd := match nextHeading with | some nh => nh.pageNumber | none => pages.length
  let sectionPages := pages.filter (fun p => pageStart ≤ p.pageNumber && p.pageNumber ≤ pageEnd)
  let text := sectionPages.foldl
    (fun t p => t ++ sectionPageText heading nextHeading pageStart pageEnd p) ""
  { heading := some heading.text, level := heading.level,
    pageStart := pageStart, pageEnd := pageEnd, text := jsTrim text }

/-- The loop of `buildSections` over the heading list, pairing each heading
with its successor. -/
def buildSectionsGo (pages : List PDFPage) : List PDFHeading → List PDFSection
  | [] => []
  | [h] => [mkSection pages h none]
  | h :: h2 :: rest => mkSection pages h (some h2) :: buildSectionsGo pages (h2 :: rest)

/-- `buildSections`: with no headings, a single level-0 section spanning
all pages with their texts joined by blank lines; otherwise one section per
heading. -/
def buildSections (pages : List PDFPage) (headings : List PDFHeading) : List PDFSection :=
  if headings.length = 0 then
    [{ heading := none, level := 0, pageStart := 1, pageEnd := pages.length,
       text := String.intercalate "\n\n" (pages.map (·.text)) }]
  else buildSectionsGo pages headings

/-! ## Verification predicates

These predicates are not translations of source code; they name the
invariants the development proves about the embedding. -/

/-- Every character of the list is non-whitespace. -/
def allNonWs (l : List Char) : Prop :=
  ∀ c ∈ l, isJsWs c = false

/-- A non-empty string that is its own trim. -/
def trimFix (s : String) : Prop :=
  s ≠ "" ∧ jsTrim s = s

/-- A chunk whose stored token count is the token count of its text. -/
def chunkConsistent (ch : ChunkData) : Prop :=
  ch.tokenCount = countTokens ch.text

/-- A word-splitter fragment whose token count matches its text, the text
being empty or trim-fixed. -/
def fragGood (f : TextFrag) : Prop :=
  f.tokenCount = countTokens f.text ∧ (f.text = "" ∨ trimFix f.text)

/-- The word-splitter state invariant: emitted fragments are good and the
buffer holds only non-empty whitespace-free words. -/
def wordAccGood (acc : WordAcc) : Prop :=
  (∀ f ∈ acc.chunks, fragGood f) ∧ (∀ w ∈ acc.cw, w ≠ "" ∧ allNonWs w.data)

/-- The sentence-loop state invariant: emitted chunks are consistent and
the buffer token count matches its (empty or trim-fixed) text. -/
def sentGood (acc : SentAcc) : Prop :=
  (∀ ch ∈ acc.chunks, chunkConsistent ch) ∧
  acc.curTok = countTokens acc.curText ∧
  (acc.curText = "" ∨ trimFix acc.curText)

/-- The paragraph-loop state invariant of the section strategy. -/
def sectionAccGood (acc : SectionAcc) : Prop :=
  (∀ ch ∈ acc.chunks, chunkConsistent ch) ∧
  acc.cur.tokenCount = countTokens acc.cur.text ∧
  (acc.cur.text = "" ∨ trimFix acc.cur.text)

/-- The paragraph-loop state invariant of the page strategy. -/
def pageAccGood (acc : PageAcc) : Prop :=
  (∀ ch ∈ acc.chunks, chunkConsistent ch) ∧
  acc.cur.tokenCount = countTokens acc.cur.text ∧
  (acc.cur.text = "" ∨ trimFix acc.cur.text)

/-! ## Concrete instances used by counterexamples and witnesses -/

/-- A per-call override merging to minTokens = 500, targetTokens = 300,
maxTokens = 100 — violating the configuration invariant. -/
def invalidCfgInput : ChunkingInput :=
  { bookId := "b",
    config := some { minTokens := some 500, maxTokens := some 100, targetTokens := some 300 },
    parsedPdf := some { fullText := "hello world", pages := [⟨1, "hello world", 11⟩],
                        headings := [], sections := [] } }

/-- A valid configuration under which the merge-ahead path of
`processSection` fires (minTokens 2 ≤ targetTokens 2 ≤ maxTokens 5). -/
def staleHashCfg : ChunkingConfig := ⟨2, 5, 2, 1, true⟩

/-- A one-section document whose first paragraph is a small buffer and
whose second paragraph must be split, triggering the merge-ahead path. -/
def staleHashInput : ChunkingInput :=
  { bookId := "b", config := none,
    parsedPdf := some { fullText := "x", pages := [], headings := [],
                        sections := [⟨some "H", 1, 1, 1, "aaaa\n\ndddd eeee ffff gggg iiii"⟩] } }

/-- A valid configuration (1 ≤ 2 ≤ 3). -/
def hugeWordCfg : ChunkingConfig := ⟨1, 3, 2, 1, true⟩

/-- A document that is a single paragraph consisting of a single
indivisible word of 5 tokens (over maxTokens = 3). -/
def hugeWordInput : ChunkingInput :=
  { bookId := "b", config := none,
    parsedPdf := some { fullText := "aaaaaaaaaaaaaaaaaaaa",
                        pages := [⟨1, "aaaaaaaaaaaaaaaaaaaa", 20⟩],
                        headings := [], sections := [] } }

/-- A valid configuration (1 ≤ 2 ≤ 3) with overlapTokens = 3 larger than
targetTokens = 2, so overlap seeding retains the whole emitted buffer. -/
def overlapGrowCfg : ChunkingConfig := ⟨1, 3, 2, 3, true⟩

/-- A document that is a single three-word paragraph of 7 tokens. -/
def overlapGrowInput : ChunkingInput :=
  { bookId := "b", config := none,
    parsedPdf := some { fullText := "aaaaaaaa bbbbbbbb cccccccc",
                        pages := [⟨1, "aaaaaaaa bbbbbbbb cccccccc", 26⟩],
                        headings := [], sections := [] } }

/-- Configuration for the overlap-seeding counterexample: targetTokens 8,
overlapTokens 4 (the ratio 1/2 is exactly representable as a JS float). -/
def overlapSeedCfg : ChunkingConfig := ⟨1, 100, 8, 4, true⟩

/-- Five words of two tokens each; the word splitter emits its first
fragment of three words after the fourth word. -/
def overlapSeedTxt : String := "aaaaaaaa bbbbbbbb cccccccc dddddddd eeeeeeee"

/-- Three pages, the first of which precedes every heading. -/
def cexPages : List PDFPage := [⟨1, "one", 3⟩, ⟨2, "A\ntwo", 5⟩, ⟨3, "B\nthree", 7⟩]

/-- Two headings on pages 2 and 3. -/
def cexHeadings : List PDFHeading := [⟨"A", 1, 2, 0⟩, ⟨"B", 1, 3, 0⟩]

/-- A valid small parsed document used to instantiate hypotheses of the
general theorems. -/
def plainPdf : ParsedPDF :=
  { fullText := "hello world", pages := [⟨1, "hello world", 11⟩],
    headings := [], sections := [] }

/-- The chunking input around `plainPdf`. -/
def plainInput : ChunkingInput :=
  { bookId := "b", config := none, parsedPdf := some plainPdf }

/-- The single chunk the page strategy produces on `plainPdf` under the
default configuration. -/
def consChunk : ChunkData :=
  ⟨"hello world", 3, 0, generateHash "hello world",
   { pageStart := some 1, pageEnd := some 1 }⟩

/-- A missing parsed document. -/
def emptyDocInput : ChunkingInput :=
  { bookId := "b", config := none, parsedPdf := none }

/-- A parsed document whose full text is blank after trimming. -/
def blankDocInput : ChunkingInput :=
  { bookId := "b", config := none,
    parsedPdf := some { fullText := "  \n ", pages := [⟨1, "  \n ", 4⟩],
                        headings := [], sections := [] } }

/-- Configuration for the C4 witness (1 ≤ 2 ≤ 3). -/
def smallSplitCfg : ChunkingConfig := ⟨1, 3, 2, 1, true⟩

/-- A single page holding a single three-word paragraph of 4 tokens. -/
def smallSplitPage : PDFPage := ⟨1, "aaaa bbbb cccc", 14⟩

/-- The document around `smallSplitPage`. -/
def smallSplitInput : ChunkingInput :=
  { bookId := "b", config := none,
    parsedPdf := some { fullText := "aaaa bbbb cccc", pages := [smallSplitPage],
                        headings := [], sections := [] } }

/-- A section used to instantiate the force-append step of `processSection`. -/
def forceSec : PDFSection := ⟨none, 0, 1, 1, ""⟩

/-- Configuration for the force-append witness (3 ≤ 5 ≤ 5). -/
def forceCfg : ChunkingConfig := ⟨3, 5, 5, 1, true⟩

/-- A section accumulator holding a small buffer (1 token, below
minTokens = 3). -/
def forceAcc : SectionAcc := ⟨[], ⟨"aaaa", 1, [1], none⟩, 0, initialStats⟩

/-- An 18-character paragraph: 5 tokens on its own (≤ maxTokens 5) but 6
tokens combined with the buffer. -/
def forcePara : String := "cccccccccccccccccc"

/-- A chunk of 8 tokens (over maxTokens 5 of `forceCfg`), with a token
count consistent with its text. -/
def bigChunk : ChunkData :=
  ⟨"dddddddddddddddddddddddddddddddd", 8, 0,
   generateHash "dddddddddddddddddddddddddddddddd", {}⟩

/-- A small chunk following `bigChunk` into the merger. -/
def smallChunk : ChunkData := ⟨"ee", 1, 1, generateHash "ee", {}⟩

/-- A word accumulator used by the C7 witness. -/
def wordAccW : WordAcc := ⟨[], ["aaaa"], 1⟩

/-- A page whose text contains its heading's line verbatim nowhere. -/
def fallbackPage : PDFPage := ⟨1, "alpha\nbeta", 10⟩

/-- A heading whose line does not occur in `fallbackPage`. -/
def fallbackHeading : PDFHeading := ⟨"GAMMA", 2, 1, 0⟩

/-- First page for the heading-line exclusion instance. -/
def exclPage1 : PDFPage := ⟨1, "Intro\nbody one", 14⟩

/-- Second page for the heading-line exclusion instance; line 1 is the
next heading's line. -/
def exclPage2 : PDFPage := ⟨2, "more body\nNext\ntail", 19⟩

/-- The heading of the first section (its line is not present verbatim on
page 1). -/
def exclHeading1 : PDFHeading := ⟨"Missing", 1, 1, 0⟩

/-- The next heading, whose line is line 1 of page 2. -/
def exclHeading2 : PDFHeading := ⟨"Next", 1, 2, 1⟩

/-- A page carrying two consecutive heading lines: its own heading on
line 0 and the next heading on line 2. -/
def samePage : PDFPage := ⟨1, "H1\nbody\nH2\ntail", 16⟩

/-- The first heading of `samePage` (line 0). -/
def sameHeading1 : PDFHeading := ⟨"H1", 1, 1, 0⟩

/-- The second heading of `samePage` (line 2) — on the same page as the
first. -/
def sameHeading2 : PDFHeading := ⟨"H2", 1, 1, 2⟩

/-! ## C1: configuration validation -/

/-- C1 (code evaluation at the failing input): `chunkDocument` performs no
configuration validation.  With a per-call override whose merged
configuration has minTokens = 500, targetTokens = 300, maxTokens = 100 —
violating `minTokens ≤ targetTokens ≤ maxTokens` — the call does not
reject the configuration: it returns success with a chunk produced under
the invalid configuration and no error (the declared `INVALID_CONFIG`
error code is never emitted anywhere in the service). -/
theorem C1_no_config_validation :
    ¬ ((mergeConfig DEFAULT_CHUNKING_CONFIG invalidCfgInput.config).minTokens ≤
         (mergeConfig DEFAULT_CHUNKING_CONFIG invalidCfgInput.config).targetTokens ∧
       (mergeConfig DEFAULT_CHUNKING_CONFIG invalidCfgInput.config).targetTokens ≤
         (mergeConfig DEFAULT_CHUNKING_CONFIG invalidCfgInput.config).maxTokens) ∧
    (chunkDocument DEFAULT_CHUNKING_CONFIG invalidCfgInput).success = true ∧
    (chunkDocument DEFAULT_CHUNKING_CONFIG invalidCfgInput).error = none ∧
    (chunkDocument DEFAULT_CHUNKING_CONFIG invalidCfgInput).chunks.length = 1 := by
  decide

/-! ## C2: chunk hash vs chunk text -/

/-- C2 (code evaluation at the failing input): the merge-ahead path of
`processSection` rewrites the first fragment's text and token count but
not its hash.  Under the valid configuration ⟨2, 2, 5⟩ the result's first
chunk has text "aaaa\n\ndddd" but still carries the hash of "dddd", which
differs from the hash of its text. -/
theorem C2_merge_ahead_stale_hash :
    staleHashCfg.minTokens ≤ staleHashCfg.targetTokens ∧
    staleHashCfg.targetTokens ≤ staleHashCfg.maxTokens ∧
    (chunkDocument staleHashCfg staleHashInput).success = true ∧
    ((chunkDocument staleHashCfg staleHashInput).chunks.map (fun c => (c.text, c.hash))).head? =
      some ("aaaa\n\ndddd", generateHash "dddd") ∧
    generateHash "dddd" ≠ generateHash "aaaa\n\ndddd" := by
  decide

/-! ## C9: validation error results -/

/-- C9: a missing parsed document yields the structured `EMPTY_DOCUMENT`
failure result and a document whose full text is blank after trimming
yields the structured `NO_TEXT_CONTENT` failure result; a `createError`
result always has `success = false` and carries the error code.  The model
is a total function, so no exception is thrown on these paths. -/
theorem C9_validation_error_results :
    (∀ (svcConfig : ChunkingConfig) (input : ChunkingInput),
      input.parsedPdf = none →
      chunkDocument svcConfig input =
        createError svcConfig .EMPTY_DOCUMENT "No parsed PDF provided" none) ∧
    (∀ (svcConfig : ChunkingConfig) (input : ChunkingInput) (pdf : ParsedPDF),
      input.parsedPdf = some pdf → jsTrim pdf.fullText = "" →
      chunkDocument svcConfig input =
        createError svcConfig .NO_TEXT_CONTENT "Parsed PDF has no text" none) ∧
    (∀ (svcConfig : ChunkingConfig) (code : ChunkingErrorCode) (msg : String) (d : Option String),
      (createError svcConfig code msg d).success = false ∧
      (createError svcConfig code msg d).error = some ⟨code, msg, d⟩ ∧
      (createError svcConfig code msg d).chunks = []) := by
  refine ⟨?_, ?_, ?_⟩
  · intro svcConfig input h
    simp [chunkDocument, h]
  · intro svcConfig input pdf h1 h2
    simp [chunkDocument, h1, h2]
  · intro svcConfig code msg d
    exact ⟨rfl, rfl, rfl⟩

/-- Witness for C9 at concrete inputs. -/
theorem C9_validation_error_results_witness :
    chunkDocument DEFAULT_CHUNKING_CONFIG emptyDocInput =
      createError DEFAULT_CHUNKING_CONFIG .EMPTY_DOCUMENT "No parsed PDF provided" none ∧
    chunkDocument DEFAULT_CHUNKING_CONFIG blankDocInput =
      createError DEFAULT_CHUNKING_CONFIG .NO_TEXT_CONTENT "Parsed PDF has no text" none ∧
    (createError DEFAULT_CHUNKING_CONFIG .EMPTY_DOCUMENT "No parsed PDF provided" none).success
      = false :=
  ⟨C9_validation_error_results.1 DEFAULT_CHUNKING_CONFIG emptyDocInput rfl,
   C9_validation_error_results.2.1 DEFAULT_CHUNKING_CONFIG blankDocInput _ rfl (by decide),
   (C9_validation_error_results.2.2 DEFAULT_CHUNKING_CONFIG .EMPTY_DOCUMENT
     "No parsed PDF provided" none).1⟩

/-! ## C4 and C6 and C7: counterexamples -/

/-- C4 counterexample.  Scenario 1: a document consisting of a single
paragraph that is one indivisible word of 5 tokens (maxTokens = 3)
produces exactly one chunk, not at least two.  Scenario 2: under the valid
configuration ⟨1, 2, 3⟩ with overlapTokens = 3, a single three-word
paragraph of 7 tokens produces a chunk "aaaaaaaa bbbbbbbb" of 5 tokens —
above maxTokens although it is neither a single indivisible word nor a
whitespace-free sentence (every single word of the paragraph is within
maxTokens). -/
theorem C4_counterexample :
    (splitIntoParagraphs "aaaaaaaaaaaaaaaaaaaa" = ["aaaaaaaaaaaaaaaaaaaa"] ∧
     countTokens "aaaaaaaaaaaaaaaaaaaa" > hugeWordCfg.maxTokens ∧
     (chunkDocument hugeWordCfg hugeWordInput).success = true ∧
     (chunkDocument hugeWordCfg hugeWordInput).chunks.length = 1) ∧
    (splitIntoParagraphs "aaaaaaaa bbbbbbbb cccccccc" = ["aaaaaaaa bbbbbbbb cccccccc"] ∧
     countTokens "aaaaaaaa bbbbbbbb cccccccc" > overlapGrowCfg.maxTokens ∧
     ((chunkDocument overlapGrowCfg overlapGrowInput).chunks.map
        (fun c => (c.text, c.tokenCount))).get? 1 = some ("aaaaaaaa bbbbbbbb", 5) ∧
     overlapGrowCfg.maxTokens < 5 ∧
     splitWhitespace "aaaaaaaa bbbbbbbb" = ["aaaaaaaa", "bbbbbbbb"] ∧
     (∀ w ∈ splitWhitespace "aaaaaaaa bbbbbbbb cccccccc",
        countTokens w ≤ overlapGrowCfg.maxTokens)) := by
  decide

/-- C6 counterexample: with headings on pages 2 and 3 of a three-page
document, `buildSections` produces page ranges [2, 3] and [3, 3].  These
ranges overlap (page 3 lies in both), and page 1 lies in no section, so
the produced sections are neither non-overlapping nor a cover of the
document. -/
theorem C6_counterexample :
    (buildSections cexPages cexHeadings).map (fun s => (s.pageStart, s.pageEnd)) =
      [(2, 3), (3, 3)] ∧
    ¬ (∀ s1 ∈ buildSections cexPages cexHeadings, ∀ s2 ∈ buildSections cexPages cexHeadings,
        s1 = s2 ∨ s1.pageEnd < s2.pageStart ∨ s2.pageEnd < s1.pageStart) ∧
    (∃ p ∈ cexPages, ∀ s ∈ buildSections cexPages cexHeadings,
      ¬ (s.pageStart ≤ p.pageNumber ∧ p.pageNumber ≤ s.pageEnd)) := by
  decide

/-- C7 counterexample: with targetTokens = 8, overlapTokens = 4 and five
two-token words, the first fragment is emitted with three words, so the
claim's formula `round((overlapTokens/targetTokens) × wordCount)` gives
`round(1.5) = 2` (computed below as a half-up rounding on naturals); but
the buffer seeded after that emission keeps only one trailing word of the
fragment (`max(1, floor(1.5)) = 1`), as the next buffer before its fifth
word shows. -/
theorem C7_counterexample :
    (splitByWords overlapSeedTxt overlapSeedCfg).map (·.text) =
      ["aaaaaaaa bbbbbbbb cccccccc", "cccccccc dddddddd eeeeeeee"] ∧
    (((splitWhitespace overlapSeedTxt).take 4).foldl (splitByWordsStep overlapSeedCfg)
        ⟨[], [], 0⟩).cw = ["cccccccc", "dddddddd"] ∧
    ((((splitWhitespace overlapSeedTxt).take 4).foldl (splitByWordsStep overlapSeedCfg)
        ⟨[], [], 0⟩).cw.dropLast).length = 1 ∧
    (2 * (overlapSeedCfg.overlapTokens * 3) + overlapSeedCfg.targetTokens) /
        (2 * overlapSeedCfg.targetTokens) = 2 ∧
    (1 : Nat) ≠ 2 := by
  decide

/-! ## Renumbering lemmas and the valid-path shape of `chunkDocument` -/

/-- Renumbering preserves the number of chunks. -/
theorem renumberFrom_length (n : Nat) :
    ∀ l : List ChunkData, (renumberFrom n l).length = l.length
  | [] => rfl
  | _ :: cs => by simp [renumberFrom, renumberFrom_length (n + 1) cs]

/-- The chunk at position `i` after renumbering from `n` is the original
chunk with its sequence field set to `n + i` and nothing else changed. -/
theorem renumberFrom_get? :
    ∀ (l : List ChunkData) (n i : Nat),
      (renumberFrom n l).get? i = (l.get? i).map (fun c => { c with sequence := n + i })
  | [], n, i => by simp [renumberFrom]
  | c :: cs, n, 0 => by simp [renumberFrom]
  | c :: cs, n, (i + 1) => by
    have h : n + 1 + i = n + (i + 1) := by omega
    simp only [renumberFrom, List.get?_cons_succ, renumberFrom_get? cs (n + 1) i, h]

/-- On a present document with non-blank text, `chunkDocument` returns a
success result whose chunks are the renumbered pipeline chunks. -/
theorem chunkDocument_of_valid (svcConfig : ChunkingConfig) (input : ChunkingInput)
    (pdf : ParsedPDF) (h1 : input.parsedPdf = some pdf) (h2 : jsTrim pdf.fullText ≠ "") :
    chunkDocument svcConfig input =
      { success := true,
        chunks := renumber (chunkPipeline (mergeConfig svcConfig input.config) pdf).1,
        stats := finalizeStats (chunkPipeline (mergeConfig svcConfig input.config) pdf).2
          (renumber (chunkPipeline (mergeConfig svcConfig input.config) pdf).1),
        config := mergeConfig svcConfig input.config,
        error := none } := by
  rcases hp : chunkPipeline (mergeConfig svcConfig input.config) pdf with ⟨m, st⟩
  simp [chunkDocument, h1, h2, hp]

/-! ## C8: final sequence numbering -/

/-- C8: on every successful call, the returned chunks are exactly the
pipeline's chunks renumbered in list order — the chunk at position `i`
carries `sequence = i` (so the sequence values are `0, 1, …, N−1`,
contiguous and strictly increasing in document order) and agrees with the
pipeline chunk at that position on every other field (text, token count,
hash, metadata). -/
theorem C8_sequences_contiguous (svcConfig : ChunkingConfig) (input : ChunkingInput)
    (pdf : ParsedPDF) (h1 : input.parsedPdf = some pdf) (h2 : jsTrim pdf.fullText ≠ "") :
    (chunkDocument svcConfig input).success = true ∧
    (chunkDocument svcConfig input).chunks.length =
      (chunkPipeline (mergeConfig svcConfig input.config) pdf).1.length ∧
    ∀ i, (chunkDocument svcConfig input).chunks.get? i =
      ((chunkPipeline (mergeConfig svcConfig input.config) pdf).1.get? i).map
        (fun c => { c with sequence := i }) := by
  rw [chunkDocument_of_valid svcConfig input pdf h1 h2]
  refine ⟨rfl, renumberFrom_length 0 _, fun i => ?_⟩
  rw [renumber, renumberFrom_get?]
  simp

/-- Witness for C8 at a concrete document. -/
theorem C8_sequences_contiguous_witness :
    (chunkDocument DEFAULT_CHUNKING_CONFIG plainInput).success = true ∧
    (chunkDocument DEFAULT_CHUNKING_CONFIG plainInput).chunks.get? 0 =
      ((chunkPipeline (mergeConfig DEFAULT_CHUNKING_CONFIG plainInput.config) plainPdf).1.get? 0).map
        (fun c => { c with sequence := 0 }) :=
  ⟨(C8_sequences_contiguous DEFAULT_CHUNKING_CONFIG plainInput plainPdf rfl (by decide)).1,
   (C8_sequences_contiguous DEFAULT_CHUNKING_CONFIG plainInput plainPdf rfl (by decide)).2.2 0⟩

/-! ## Section-builder lemmas -/

/-- Appending the empty string on the left is the identity. -/
theorem empty_append_str (s : String) : "" ++ s = s := by
  cases s
  rfl

/-- With no headings, one level-0 section spanning all pages. -/
theorem buildSections_empty (pages : List PDFPage) :
    buildSections pages [] =
      [{ heading := none, level := 0, pageStart := 1, pageEnd := pages.length,
         text := String.intercalate "\n\n" (pages.map (·.text)) }] := by
  simp [buildSections]

/-- One section is built per heading. -/
theorem buildSectionsGo_length (pages : List PDFPage) :
    ∀ hs : List PDFHeading, (buildSectionsGo pages hs).length = hs.length
  | [] => rfl
  | [_] => rfl
  | _ :: h2 :: rest => by
    simp [buildSectionsGo, buildSectionsGo_length pages (h2 :: rest)]

/-- The section at position `i` is built from heading `i` and heading
`i + 1` (when present). -/
theorem buildSectionsGo_get? (pages : List PDFPage) :
    ∀ (hs : List PDFHeading) (i : Nat),
      (buildSectionsGo pages hs).get? i =
        (hs.get? i).map (fun h => mkSection pages h (hs.get? (i + 1)))
  | [], i => by simp [buildSectionsGo]
  | [h], 0 => by simp [buildSectionsGo]
  | [h], (i + 1) => by simp [buildSectionsGo]
  | h :: h2 :: rest, 0 => by simp [buildSectionsGo]
  | h :: h2 :: rest, (i + 1) => by
    simp only [buildSectionsGo, List.get?_cons_succ]
    exact buildSectionsGo_get? pages (h2 :: rest) i

/-- A non-empty heading list yields a non-empty section list. -/
theorem buildSectionsGo_ne_nil (pages : List PDFPage) (hs : List PDFHeading)
    (h : hs ≠ []) : buildSectionsGo pages hs ≠ [] := by
  intro hnil
  have := buildSectionsGo_length pages hs
  rw [hnil] at this
  exact h (List.length_eq_zero.mp this.symm)

/-- The last produced section is built from some heading with no
successor. -/
theorem buildSectionsGo_getLast? (pages : List PDFPage) :
    ∀ hs : List PDFHeading, hs ≠ [] →
      ∃ h', (buildSectionsGo pages hs).getLast? = some (mkSection pages h' none)
  | [], hne => absurd rfl hne
  | [h], _ => ⟨h, by simp [buildSectionsGo]⟩
  | h :: h2 :: rest, _ => by
    obtain ⟨h', hh'⟩ := buildSectionsGo_getLast? pages (h2 :: rest) (by simp)
    refine ⟨h', ?_⟩
    rw [buildSectionsGo]
    rcases hgo : buildSectionsGo pages (h2 :: rest) with _ | ⟨x, xs⟩
    · exact absurd hgo (buildSectionsGo_ne_nil pages (h2 :: rest) (by simp))
    · rw [List.getLast?_cons_cons, ← hgo, hh']

/-! ## C5: section spans, heading-line stripping, fallback -/

/-- C5 counterexample: when consecutive headings share a page, the next
heading's line is NOT excluded from the section's text even though it is
locatable.  `buildSections` assembles the first section's only page
through the first-page branch (which strips the section's own heading
line only), so the produced text still holds the line `"H2"` although
`findIdx?` locates it on the page. -/
theorem C5_counterexample :
    (splitLines samePage.text).findIdx? (fun l => jsTrim l == sameHeading2.text) =
      some 2 ∧
    (buildSections [samePage] [sameHeading1, sameHeading2]).get? 0 = some
      { heading := some sameHeading1.text, level := sameHeading1.level,
        pageStart := 1, pageEnd := 1, text := "body\nH2\ntail" } ∧
    sameHeading2.text ∈ (splitLines "body\nH2\ntail").map jsTrim := by
  decide

/-- C5 amended: (1) with no headings, `buildSections` returns exactly one
level-0 section covering all pages with their texts concatenated; (2) for
heading `i`, the produced section carries the heading's text and level and
spans from the heading's page to heading `i+1`'s page, or to the
document's last page for the final heading; (3) when the heading's line
cannot be found verbatim in its page, the whole page text is kept (no
error); (4) the next heading's own line is excluded from the end of the
section's text when the next heading lies on a later page (shown for a
two-page, two-heading document; the first page also exercises the
fallback); (5) when consecutive headings share a page, the shared page is
processed by the first-page branch alone — only the section's own heading
line is stripped and the next heading's line is kept, locatable or not. -/
theorem C5_amended_buildSections_structure (pages : List PDFPage)
    (headings : List PDFHeading) :
    (headings = [] → buildSections pages headings =
      [{ heading := none, level := 0, pageStart := 1, pageEnd := pages.length,
         text := String.intercalate "\n\n" (pages.map (·.text)) }]) ∧
    (∀ i h, headings.get? i = some h →
      ∃ s, (buildSections pages headings).get? i = some s ∧
        s.heading = some h.text ∧ s.level = h.level ∧ s.pageStart = h.pageNumber ∧
        s.pageEnd = (match headings.get? (i + 1) with
                     | some nh => nh.pageNumber
                     | none => pages.length)) ∧
    (∀ (p : PDFPage) (h : PDFHeading), p.pageNumber = 1 → h.pageNumber = 1 →
      (splitLines p.text).findIdx? (fun l => jsTrim l == h.text) = none →
      buildSections [p] [h] =
        [{ heading := some h.text, level := h.level, pageStart := 1, pageEnd := 1,
           text := jsTrim p.text }]) ∧
    (∀ (p1 p2 : PDFPage) (h1 h2 : PDFHeading) (j : Nat),
      p1.pageNumber = 1 → p2.pageNumber = 2 → h1.pageNumber = 1 → h2.pageNumber = 2 →
      (splitLines p1.text).findIdx? (fun l => jsTrim l == h1.text) = none →
      (splitLines p2.text).findIdx? (fun l => jsTrim l == h2.text) = some j →
      (buildSections [p1, p2] [h1, h2]).get? 0 = some
        { heading := some h1.text, level := h1.level, pageStart := 1, pageEnd := 2,
          text := jsTrim (p1.text ++
            ("\n" ++ String.intercalate "\n" ((splitLines p2.text).take j))) }) ∧
    (∀ (p : PDFPage) (h1 h2 : PDFHeading) (i : Nat),
      p.pageNumber = 1 → h1.pageNumber = 1 → h2.pageNumber = 1 →
      (splitLines p.text).findIdx? (fun l => jsTrim l == h1.text) = some i →
      (buildSections [p] [h1, h2]).get? 0 = some
        { heading := some h1.text, level := h1.level, pageStart := 1, pageEnd := 1,
          text := jsTrim (String.intercalate "\n" ((splitLines p.text).drop (i + 1))) }) := by
  refine ⟨fun hh => by subst hh; exact buildSections_empty pages, ?_, ?_, ?_, ?_⟩
  · intro i h hhead
    have hne : ¬ headings.length = 0 := by
      intro hlen
      rw [List.length_eq_zero] at hlen
      subst hlen
      simp at hhead
    refine ⟨mkSection pages h (headings.get? (i + 1)), ?_, rfl, rfl, rfl, rfl⟩
    simp only [buildSections, if_neg hne]
    rw [buildSectionsGo_get? pages headings i, hhead]
    rfl
  · intro p h hp hh hfind
    simp [buildSections, buildSectionsGo, mkSection, sectionPageText, hp, hh, hfind,
      empty_append_str]
  · intro p1 p2 h1 h2 j hp1 hp2 hh1 hh2 hfind1 hfind2
    simp [buildSections, buildSectionsGo, mkSection, sectionPageText, hp1, hp2, hh1, hh2,
      hfind1, hfind2, empty_append_str]
  · intro p h1 h2 i hp hh1 hh2 hfind
    simp [buildSections, buildSectionsGo, mkSection, sectionPageText, hp, hh1, hh2,
      hfind, empty_append_str]

/-- Witness for the amended C5 at concrete pages and headings. -/
theorem C5_amended_buildSections_structure_witness :
    (buildSections cexPages [] =
      [{ heading := none, level := 0, pageStart := 1, pageEnd := cexPages.length,
         text := String.intercalate "\n\n" (cexPages.map (·.text)) }]) ∧
    (∃ s, (buildSections cexPages cexHeadings).get? 0 = some s ∧
      s.heading = some (PDFHeading.text ⟨"A", 1, 2, 0⟩) ∧
      s.level = PDFHeading.level ⟨"A", 1, 2, 0⟩ ∧
      s.pageStart = PDFHeading.pageNumber ⟨"A", 1, 2, 0⟩ ∧
      s.pageEnd = (match cexHeadings.get? 1 with
                   | some nh => nh.pageNumber
                   | none => cexPages.length)) ∧
    (buildSections [fallbackPage] [fallbackHeading] =
      [{ heading := some fallbackHeading.text, level := fallbackHeading.level,
         pageStart := 1, pageEnd := 1, text := jsTrim fallbackPage.text }]) ∧
    ((buildSections [exclPage1, exclPage2] [exclHeading1, exclHeading2]).get? 0 = some
      { heading := some exclHeading1.text, level := exclHeading1.level,
        pageStart := 1, pageEnd := 2,
        text := jsTrim (exclPage1.text ++
          ("\n" ++ String.intercalate "\n" ((splitLines exclPage2.text).take 1))) }) ∧
    ((buildSections [samePage] [sameHeading1, sameHeading2]).get? 0 = some
      { heading := some sameHeading1.text, level := sameHeading1.level,
        pageStart := 1, pageEnd := 1,
        text := jsTrim (String.intercalate "\n" ((splitLines samePage.text).drop (0 + 1))) }) :=
  ⟨(C5_amended_buildSections_structure cexPages []).1 rfl,
   (C5_amended_buildSections_structure cexPages cexHeadings).2.1 0 ⟨"A", 1, 2, 0⟩ rfl,
   (C5_amended_buildSections_structure [fallbackPage] [fallbackHeading]).2.2.1 fallbackPage
     fallbackHeading rfl rfl (by decide),
   (C5_amended_buildSections_structure [exclPage1, exclPage2] [exclHeading1, exclHeading2]).2.2.2.1
     exclPage1 exclPage2 exclHeading1 exclHeading2 1 rfl rfl rfl rfl (by decide) (by decide),
   (C5_amended_buildSections_structure [samePage] [sameHeading1, sameHeading2]).2.2.2.2
     samePage sameHeading1 sameHeading2 0 rfl rfl rfl (by decide)⟩

/-! ## C6 amended: boundary contiguity -/

/-- C6 amended: adjacent sections are contiguous in the weaker boundary
sense — section `i`'s `pageEnd` equals section `i+1`'s `pageStart` (the
two inclusive page ranges share exactly that boundary page instead of
being disjoint), the final section always ends at the document's last
page, and an empty heading list yields exactly one level-0 section
spanning all pages.  Disjointness of the ranges and coverage of pages
before the first heading do not hold (see the counterexample). -/
theorem C6_amended_boundary_contiguity (pages : List PDFPage) (headings : List PDFHeading) :
    (headings = [] → buildSections pages headings =
      [{ heading := none, level := 0, pageStart := 1, pageEnd := pages.length,
         text := String.intercalate "\n\n" (pages.map (·.text)) }]) ∧
    (headings ≠ [] → (buildSections pages headings).length = headings.length) ∧
    (∀ i s1 s2, (buildSections pages headings).get? i = some s1 →
      (buildSections pages headings).get? (i + 1) = some s2 →
      s1.pageEnd = s2.pageStart) ∧
    (∀ s, headings ≠ [] → (buildSections pages headings).getLast? = some s →
      s.pageEnd = pages.length) := by
  refine ⟨fun hh => by subst hh; exact buildSections_empty pages, ?_, ?_, ?_⟩
  · intro hne
    have hlen : ¬ headings.length = 0 := fun h => hne (List.length_eq_zero.mp h)
    simp only [buildSections, if_neg hlen]
    exact buildSectionsGo_length pages headings
  · intro i s1 s2 hs1 hs2
    by_cases hlen : headings.length = 0
    · rw [List.length_eq_zero] at hlen
      subst hlen
      rw [buildSections_empty] at hs2
      cases i <;> simp at hs2
    · simp only [buildSections, if_neg hlen] at hs1 hs2
      rw [buildSectionsGo_get? pages headings i] at hs1
      rw [buildSectionsGo_get? pages headings (i + 1)] at hs2
      obtain ⟨a1, ha1, hm1⟩ := Option.map_eq_some'.mp hs1
      obtain ⟨a2, ha2, hm2⟩ := Option.map_eq_some'.mp hs2
      subst hm1
      subst hm2
      rw [ha2]
      rfl
  · intro s hne hlast
    have hlen : ¬ headings.length = 0 := fun h => hne (List.length_eq_zero.mp h)
    simp only [buildSections, if_neg hlen] at hlast
    obtain ⟨h', hh'⟩ := buildSectionsGo_getLast? pages headings hne
    rw [hh'] at hlast
    cases hlast
    rfl

/-- Witness for C6 amended at the counterexample pages and headings. -/
theorem C6_amended_boundary_contiguity_witness :
    (buildSections cexPages cexHeadings).length = cexHeadings.length ∧
    (PDFSection.pageEnd ⟨some "A", 1, 2, 3, "two"⟩ =
      PDFSection.pageStart ⟨some "B", 1, 3, 3, "three"⟩) ∧
    (PDFSection.pageEnd ⟨some "B", 1, 3, 3, "three"⟩ = cexPages.length) :=
  ⟨(C6_amended_boundary_contiguity cexPages cexHeadings).2.1 (by decide),
   (C6_amended_boundary_contiguity cexPages cexHeadings).2.2.1 0
     ⟨some "A", 1, 2, 3, "two"⟩ ⟨some "B", 1, 3, 3, "three"⟩ (by decide) (by decide),
   (C6_amended_boundary_contiguity cexPages cexHeadings).2.2.2
     ⟨some "B", 1, 3, 3, "three"⟩ (by decide) (by decide)⟩

/-! ## Token-count lemmas -/

/-- A non-empty string has positive length. -/
theorem str_length_pos (s : String) (h : s ≠ "") : 0 < s.length := by
  cases s with
  | mk data =>
    cases data with
    | nil => exact absurd rfl h
    | cons c cs => simp [String.length]

/-- A non-empty string has a positive token count. -/
theorem countTokens_pos (s : String) (h : s ≠ "") : 0 < countTokens s := by
  rw [countTokens, if_neg h]
  have := str_length_pos s h
  omega

/-- The token count of the modelled tokenizer only grows when text is
prepended. -/
theorem countTokens_le_append (a b : String) (hb : b ≠ "") :
    countTokens b ≤ countTokens (a ++ b) := by
  have hlen : (a ++ b).length = a.length + b.length := String.length_append a b
  have hb0 : 0 < b.length := str_length_pos b hb
  have hab : a ++ b ≠ "" := by
    intro h
    have h0 : (a ++ b).length = 0 := by rw [h]; rfl
    omega
  rw [countTokens, countTokens, if_neg hb, if_neg hab, hlen]
  exact Nat.div_le_div_right (by omega)

/-! ## Merger pass-through lemmas -/

/-- A chunk already in the output prefix stays there. -/
theorem mergeStep_merged_mono (config : ChunkingConfig) (acc : MergeAcc) (x ch : ChunkData)
    (h : ch ∈ acc.merged) : ch ∈ (mergeStep config acc x).merged := by
  obtain ⟨m, cur?, st⟩ := acc
  cases cur? with
  | none => exact h
  | some cur =>
    simp only [mergeStep]
    split
    · split
      · exact h
      · exact List.mem_append_left _ h
    · exact List.mem_append_left _ h

/-- An over-max chunk held as the running buffer is flushed unchanged by
the next step (its token count is at least the minimum because
`minTokens ≤ maxTokens`). -/
theorem mergeStep_cur_flushed (config : ChunkingConfig) (acc : MergeAcc) (x ch : ChunkData)
    (hmm : config.minTokens ≤ config.maxTokens)
    (hbig : config.maxTokens < ch.tokenCount)
    (h : acc.cur = some ch) : ch ∈ (mergeStep config acc x).merged := by
  obtain ⟨m, cur?, st⟩ := acc
  cases h
  simp only [mergeStep]
  have : ¬ ch.tokenCount < config.minTokens := by omega
  rw [if_neg this]
  exact List.mem_append_right _ (by simp)

/-- An over-max chunk with a consistent token count is never absorbed: the
step that consumes it makes it the new running buffer (or, vacuously,
keeps it in the output). -/
theorem mergeStep_consume_big (config : ChunkingConfig) (acc : MergeAcc) (ch : ChunkData)
    (hcons : ch.tokenCount = countTokens ch.text)
    (hbig : config.maxTokens < ch.tokenCount) :
    (mergeStep config acc ch).cur = some ch ∨ ch ∈ (mergeStep config acc ch).merged := by
  obtain ⟨m, cur?, st⟩ := acc
  cases cur? with
  | none => exact Or.inl rfl
  | some cur =>
    have htext : ch.text ≠ "" := by
      intro h
      rw [h] at hcons
      simp [countTokens] at hcons
      omega
    simp only [mergeStep]
    split
    · have hge : countTokens ch.text ≤ countTokens (cur.text ++ PARA_SEP ++ ch.text) :=
        countTokens_le_append (cur.text ++ PARA_SEP) ch.text htext
      have : ¬ countTokens (cur.text ++ PARA_SEP ++ ch.text) ≤ config.maxTokens := by omega
      rw [if_neg this]
      exact Or.inl rfl
    · exact Or.inl rfl

/-- Fold form of the pass-through property: an over-max, consistent chunk
that is still ahead in the input, already in the output, or held as the
buffer, ends up in the output or in the final buffer. -/
theorem mergeStep_foldl_keeps (config : ChunkingConfig) (ch : ChunkData)
    (hmm : config.minTokens ≤ config.maxTokens)
    (hcons : ch.tokenCount = countTokens ch.text)
    (hbig : config.maxTokens < ch.tokenCount) :
    ∀ (l : List ChunkData) (acc : MergeAcc),
      (ch ∈ l ∨ ch ∈ acc.merged ∨ acc.cur = some ch) →
      (ch ∈ (l.foldl (mergeStep config) acc).merged ∨
       (l.foldl (mergeStep config) acc).cur = some ch)
  | [], acc, h => by
    rcases h with h | h | h
    · simp at h
    · exact Or.inl h
    · exact Or.inr h
  | x :: xs, acc, h => by
    rw [List.foldl_cons]
    apply mergeStep_foldl_keeps config ch hmm hcons hbig xs (mergeStep config acc x)
    rcases h with h | h | h
    · rcases List.mem_cons.mp h with rfl | hxs
      · rcases mergeStep_consume_big config acc ch hcons hbig with hc | hm
        · exact Or.inr (Or.inr hc)
        · exact Or.inr (Or.inl hm)
      · exact Or.inl hxs
    · exact Or.inr (Or.inl (mergeStep_merged_mono config acc x ch h))
    · exact Or.inr (Or.inl (mergeStep_cur_flushed config acc x ch hmm hbig h))

/-- An over-max chunk with a consistent token count passes through the
whole merger into its output. -/
theorem mergeSmallChunks_passthrough (chunks : List ChunkData) (config : ChunkingConfig)
    (stats : ChunkingStats) (ch : ChunkData)
    (hmm : config.minTokens ≤ config.maxTokens)
    (hcons : ch.tokenCount = countTokens ch.text)
    (hbig : config.maxTokens < ch.tokenCount)
    (hmem : ch ∈ chunks) : ch ∈ (mergeSmallChunks chunks config stats).1 := by
  rw [mergeSmallChunks]
  split
  · exact hmem
  · have := mergeStep_foldl_keeps config ch hmm hcons hbig chunks ⟨[], none, stats⟩
      (Or.inl hmem)
    rcases hcur : (chunks.foldl (mergeStep config) ⟨[], none, stats⟩).cur with _ | cur
    · rcases this with hm | hc
      · simp only [hcur]
        exact hm
      · rw [hcur] at hc
        cases hc
    · rcases this with hm | hc
      · simp only [hcur]
        exact List.mem_append_left _ hm
      · rw [hcur] at hc
        cases hc
        simp only [hcur]
        exact List.mem_append_right _ (by simp)


/-! ## C7 amended: overlap seeding -/

/-- One merger step is unaffected by the overlap setting. -/
theorem mergeStep_overlap_irrelevant (config : ChunkingConfig) (o : Nat)
    (acc : MergeAcc) (ch : ChunkData) :
    mergeStep { config with overlapTokens := o } acc ch = mergeStep config acc ch := by
  obtain ⟨m, cur?, st⟩ := acc
  cases cur? <;> rfl

/-- The merger fold is unaffected by the overlap setting. -/
theorem foldl_mergeStep_overlap (config : ChunkingConfig) (o : Nat) :
    ∀ (l : List ChunkData) (acc : MergeAcc),
      l.foldl (mergeStep { config with overlapTokens := o }) acc =
        l.foldl (mergeStep config) acc
  | [], _ => rfl
  | x :: xs, acc => by
    rw [List.foldl_cons, List.foldl_cons, mergeStep_overlap_irrelevant,
      foldl_mergeStep_overlap config o xs (mergeStep config acc x)]

/-- C7 amended: (1) whenever the additive estimate of adding the next word
exceeds `targetTokens` and the buffer is non-empty, the buffer is emitted
as a fragment (token count recomputed on the joined text) and the next
buffer is seeded with exactly
`max(1, floor((overlapTokens / targetTokens) × wordCount))` trailing words
of the emitted buffer — a floor with a minimum of one word, not the
rounding claimed; (2) the merger pass is unaffected by `overlapTokens`;
(3) a paragraph-reduction step that does not enter the splitter is
unaffected by `overlapTokens` — word-level splitting is the only part of
the pipeline that reads it. -/
theorem C7_amended_overlap_seeding :
    (∀ (config : ChunkingConfig) (acc : WordAcc) (w : String),
      w ≠ "" →
      acc.cw ≠ [] →
      config.targetTokens < acc.ct + countTokens w + 1 →
      (splitByWordsStep config acc w).chunks =
        acc.chunks ++ [⟨String.intercalate " " acc.cw,
                        countTokens (String.intercalate " " acc.cw)⟩] ∧
      (splitByWordsStep config acc w).cw =
        acc.cw.drop (acc.cw.length -
          max 1 ((config.overlapTokens * acc.cw.length) / config.targetTokens)) ++ [w]) ∧
    (∀ (chunks : List ChunkData) (config : ChunkingConfig) (stats : ChunkingStats) (o : Nat),
      mergeSmallChunks chunks { config with overlapTokens := o } stats =
        mergeSmallChunks chunks config stats) ∧
    (∀ (sec : PDFSection) (config : ChunkingConfig) (meta : ChunkMetadata)
       (acc : SectionAcc) (p : String) (o : Nat),
      countTokens (jsTrim p) ≤ config.maxTokens →
      processSectionStep sec { config with overlapTokens := o } meta acc p =
        processSectionStep sec config meta acc p) := by
  refine ⟨?_, ?_, ?_⟩
  · intro config acc w hw hcw hnt
    have hlen : 0 < acc.cw.length := List.length_pos.mpr hcw
    simp only [splitByWordsStep]
    rw [if_neg hw]
    rw [if_pos ⟨by rw [if_pos hlen]; exact hnt, hlen⟩]
    exact ⟨rfl, rfl⟩
  · intro chunks config stats o
    simp only [mergeSmallChunks, foldl_mergeStep_overlap config o]
  · intro sec config meta acc p o hpt
    simp only [processSectionStep]
    by_cases htp : jsTrim p = ""
    · rw [if_pos htp, if_pos htp]
    · rw [if_neg htp, if_neg htp]
      rw [if_neg (not_lt.mpr hpt), if_neg (not_lt.mpr hpt)]

/-- Witness for C7 amended: a concrete emission (buffer of one one-token
word, next word pushing the estimate to 3 over targetTokens 2, overlap
tail max(1, floor(1/2)) = 1 word), a concrete merger run, and a concrete
non-splitting paragraph step, each unaffected as stated. -/
theorem C7_amended_overlap_seeding_witness :
    ((splitByWordsStep hugeWordCfg wordAccW "bbbb").chunks =
      wordAccW.chunks ++ [⟨String.intercalate " " wordAccW.cw,
                           countTokens (String.intercalate " " wordAccW.cw)⟩] ∧
     (splitByWordsStep hugeWordCfg wordAccW "bbbb").cw =
       wordAccW.cw.drop (wordAccW.cw.length -
         max 1 ((hugeWordCfg.overlapTokens * wordAccW.cw.length) / hugeWordCfg.targetTokens))
         ++ ["bbbb"]) ∧
    mergeSmallChunks [bigChunk, smallChunk] { forceCfg with overlapTokens := 7 } initialStats =
      mergeSmallChunks [bigChunk, smallChunk] forceCfg initialStats ∧
    processSectionStep forceSec { forceCfg with overlapTokens := 9 } {} forceAcc "dd" =
      processSectionStep forceSec forceCfg {} forceAcc "dd" :=
  ⟨C7_amended_overlap_seeding.1 hugeWordCfg wordAccW "bbbb" (by decide) (by decide) (by decide),
   C7_amended_overlap_seeding.2.1 [bigChunk, smallChunk] forceCfg initialStats 7,
   C7_amended_overlap_seeding.2.2 forceSec forceCfg {} forceAcc "dd" 9 (by decide)⟩

/-! ## Non-emptiness lemmas for the splitter chain -/

/-- The head remaining after `dropWhile` does not satisfy the predicate. -/
theorem dropWhile_head_false (p : Char → Bool) :
    ∀ (l : List Char) (c : Char) (t : List Char), l.dropWhile p = c :: t → p c = false
  | [], c, t, h => by simp [List.dropWhile] at h
  | a :: l, c, t, h => by
    rw [List.dropWhile_cons] at h
    by_cases hpa : p a = true
    · rw [if_pos hpa] at h
      exact dropWhile_head_false p l c t h
    · rw [if_neg hpa] at h
      cases h
      exact Bool.eq_false_iff.mpr hpa

/-- A string is non-empty exactly when its character list is. -/
theorem str_mk_ne_empty (l : List Char) (h : l ≠ []) : String.mk l ≠ "" := by
  intro he
  apply h
  have := congrArg String.data he
  simpa using this

/-- A string containing some character is non-empty. -/
theorem str_ne_of_data_mem {s : String} {c : Char} (h : c ∈ s.data) : s ≠ "" := by
  intro he
  rw [he] at h
  have : ("" : String).data = [] := rfl
  rw [this] at h
  simp at h

/-- Appending a non-empty string on the right yields a non-empty string. -/
theorem str_append_ne (a b : String) (hb : b ≠ "") : a ++ b ≠ "" := by
  have hb0 : 0 < b.length := str_length_pos b hb
  have hlen : (a ++ b).length = a.length + b.length := String.length_append a b
  intro h
  have h0 : (a ++ b).length = 0 := by rw [h]; rfl
  omega

/-- A non-blank trimmed string contains a non-whitespace character. -/
theorem jsTrim_has_nonWs (s : String) (h : jsTrim s ≠ "") :
    ∃ c ∈ (jsTrim s).data, isJsWs c = false := by
  rcases hm : (s.data.dropWhile isJsWs).reverse.dropWhile isJsWs with _ | ⟨c, t⟩
  · exact absurd (by simp [jsTrim, jsTrimList, hm]) h
  · refine ⟨c, ?_, dropWhile_head_false isJsWs _ c t hm⟩
    show c ∈ jsTrimList s.data
    simp [jsTrimList, hm]

/-- The `/\s+/` split of input holding a non-whitespace character (or
scanned from a non-empty field accumulator) contains a non-empty field. -/
theorem splitWsImpl_exists :
    ∀ (cs : List Char) (st : WsState),
      ((∃ c ∈ cs, isJsWs c = false) ∨ (∃ acc, st = .field acc ∧ acc ≠ [])) →
      ∃ w ∈ splitWsImpl cs st, w ≠ []
  | [], .field acc, h => by
    rcases h with ⟨c, hc, _⟩ | ⟨acc', heq, hne⟩
    · simp at hc
    · cases heq
      exact ⟨acc.reverse, by simp [splitWsImpl], by simpa using hne⟩
  | [], .sep, h => by
    rcases h with ⟨c, hc, _⟩ | ⟨acc', heq, _⟩
    · simp at hc
    · cases heq
  | c :: rest, .field acc, h => by
    by_cases hws : isJsWs c = true
    · rcases h with ⟨c', hc', hnw⟩ | ⟨acc', heq, hne⟩
      · rcases List.mem_cons.mp hc' with rfl | hrest
        · rw [hws] at hnw
          cases hnw
        · obtain ⟨w, hw, hwne⟩ := splitWsImpl_exists rest .sep (Or.inl ⟨c', hrest, hnw⟩)
          exact ⟨w, by simp [splitWsImpl, hws]; exact Or.inr hw, hwne⟩
      · cases heq
        refine ⟨acc.reverse, ?_, by simpa using hne⟩
        simp [splitWsImpl, hws]
    · obtain ⟨w, hw, hwne⟩ :=
        splitWsImpl_exists rest (.field (c :: acc)) (Or.inr ⟨c :: acc, rfl, by simp⟩)
      exact ⟨w, by simp [splitWsImpl, hws]; exact hw, hwne⟩
  | c :: rest, .sep, h => by
    by_cases hws : isJsWs c = true
    · rcases h with ⟨c', hc', hnw⟩ | ⟨acc', heq, _⟩
      · rcases List.mem_cons.mp hc' with rfl | hrest
        · rw [hws] at hnw
          cases hnw
        · obtain ⟨w, hw, hwne⟩ := splitWsImpl_exists rest .sep (Or.inl ⟨c', hrest, hnw⟩)
          exact ⟨w, by simp [splitWsImpl, hws]; exact hw, hwne⟩
      · cases heq
    · obtain ⟨w, hw, hwne⟩ :=
        splitWsImpl_exists rest (.field [c]) (Or.inr ⟨[c], rfl, by simp⟩)
      exact ⟨w, by simp [splitWsImpl, hws]; exact hw, hwne⟩

/-- A string with a non-whitespace character splits into words at least
one of which is non-empty. -/
theorem splitWhitespace_exists (s : String) (h : ∃ c ∈ s.data, isJsWs c = false) :
    ∃ w ∈ splitWhitespace s, w ≠ "" := by
  obtain ⟨w', hw', hne⟩ := splitWsImpl_exists s.data (.field []) (Or.inl h)
  exact ⟨String.mk w', List.mem_map_of_mem _ hw', str_mk_ne_empty w' hne⟩

/-- Any step of the word splitter on a non-empty word, or from a state
that already holds output or buffer, leaves output or buffer. -/
theorem splitByWordsStep_J (config : ChunkingConfig) (acc : WordAcc) (w : String)
    (h : (acc.chunks ≠ [] ∨ acc.cw ≠ []) ∨ w ≠ "") :
    (splitByWordsStep config acc w).chunks ≠ [] ∨ (splitByWordsStep config acc w).cw ≠ [] := by
  by_cases hw : w = ""
  · subst hw
    simp only [splitByWordsStep, if_pos rfl]
    rcases h with h | h
    · exact h
    · exact absurd rfl h
  · simp only [splitByWordsStep, if_neg hw]
    refine Or.inr ?_
    split <;> split <;> simp

/-- Fold form of `splitByWordsStep_J`. -/
theorem splitByWords_foldl_J (config : ChunkingConfig) :
    ∀ (ws : List String) (acc : WordAcc),
      ((∃ w ∈ ws, w ≠ "") ∨ (acc.chunks ≠ [] ∨ acc.cw ≠ [])) →
      ((ws.foldl (splitByWordsStep config) acc).chunks ≠ [] ∨
       (ws.foldl (splitByWordsStep config) acc).cw ≠ [])
  | [], acc, h => by
    rcases h with ⟨w, hw, _⟩ | h
    · simp at hw
    · exact h
  | x :: xs, acc, h => by
    rw [List.foldl_cons]
    apply splitByWords_foldl_J config xs
    rcases h with ⟨w, hw, hne⟩ | h
    · rcases List.mem_cons.mp hw with rfl | hxs
      · exact Or.inr (splitByWordsStep_J config acc w (Or.inr hne))
      · exact Or.inl ⟨w, hxs, hne⟩
    · exact Or.inr (splitByWordsStep_J config acc x (Or.inl h))

/-- The word splitter never returns an empty fragment list on text holding
a non-whitespace character. -/
theorem splitByWords_ne_nil (s : String) (config : ChunkingConfig)
    (h : ∃ c ∈ s.data, isJsWs c = false) : splitByWords s config ≠ [] := by
  have hJ := splitByWords_foldl_J config (splitWhitespace s) ⟨[], [], 0⟩
    (Or.inl (splitWhitespace_exists s h))
  rw [splitByWords]
  split
  · simp
  · next hlen =>
    rcases hJ with hchunks | hcw
    · exact hchunks
    · exact absurd (List.length_pos.mpr hcw) hlen

/-- The sentence list of a text is never empty. -/
theorem splitIntoSentences_ne_nil (t : String) : splitIntoSentences t ≠ [] := by
  rw [splitIntoSentences]
  split
  · next h => exact List.length_pos.mp h
  · simp

/-- Every sentence of a trimmed non-empty text contains a non-whitespace
character. -/
theorem splitIntoSentences_mem_nonWs (t : String) (ht : jsTrim t = t) (hne : t ≠ "")
    (s : String) (hs : s ∈ splitIntoSentences t) : ∃ c ∈ s.data, isJsWs c = false := by
  rw [splitIntoSentences] at hs
  split at hs
  · rw [List.mem_filter] at hs
    obtain ⟨hmap, hnee⟩ := hs
    rw [List.mem_map] at hmap
    obtain ⟨x, _, hx⟩ := hmap
    subst hx
    exact jsTrim_has_nonWs x (by simpa using hnee)
  · rw [List.mem_singleton] at hs
    subst hs
    have h1 : jsTrim s ≠ "" := by rw [ht]; exact hne
    have h2 := jsTrim_has_nonWs s h1
    rwa [ht] at h2

/-- The word-chunk emission fold leaves a non-empty chunk list whenever
the incoming chunk list or the fragment list is non-empty. -/
theorem sentWordChunkStep_foldl_chunks (meta : ChunkMetadata) :
    ∀ (wcs : List TextFrag) (a : SentAcc),
      (a.chunks ≠ [] ∨ wcs ≠ []) → (wcs.foldl (sentWordChunkStep meta) a).chunks ≠ []
  | [], a, h => by
    rcases h with h | h
    · exact h
    · exact absurd rfl h
  | wc :: rest, a, h => by
    rw [List.foldl_cons]
    exact sentWordChunkStep_foldl_chunks meta rest _ (Or.inl (by simp [sentWordChunkStep]))

/-- Any sentence step on a sentence holding a non-whitespace character
leaves chunks or a positive buffer. -/
theorem splitLargeParagraphStep_I (config : ChunkingConfig) (meta : ChunkMetadata)
    (acc : SentAcc) (s : String) (hs : ∃ c ∈ s.data, isJsWs c = false) :
    (splitLargeParagraphStep config meta acc s).chunks ≠ [] ∨
    0 < (splitLargeParagraphStep config meta acc s).curTok := by
  have hsne : s ≠ "" := str_ne_of_data_mem hs.choose_spec.1
  simp only [splitLargeParagraphStep]
  split
  · exact Or.inl (sentWordChunkStep_foldl_chunks meta _ _
      (Or.inr (splitByWords_ne_nil s config hs)))
  · right
    split
    · split
      · exact countTokens_pos s hsne
      · exact countTokens_pos _ (str_append_ne _ s hsne)
    · split
      · exact countTokens_pos s hsne
      · exact countTokens_pos s hsne

/-- The sentence fold over a non-empty list of non-whitespace sentences
ends with chunks or a positive buffer. -/
theorem sentFold_I (config : ChunkingConfig) (meta : ChunkMetadata) :
    ∀ (ss : List String) (acc : SentAcc),
      ss ≠ [] → (∀ s ∈ ss, ∃ c ∈ s.data, isJsWs c = false) →
      ((ss.foldl (splitLargeParagraphStep config meta) acc).chunks ≠ [] ∨
       0 < (ss.foldl (splitLargeParagraphStep config meta) acc).curTok)
  | [], _, h, _ => absurd rfl h
  | [x], acc, _, hall => by
    rw [List.foldl_cons, List.foldl_nil]
    exact splitLargeParagraphStep_I config meta acc x (hall x (by simp))
  | x :: y :: rest, acc, _, hall => by
    rw [List.foldl_cons]
    exact sentFold_I config meta (y :: rest) _ (by simp)
      (fun s hs => hall s (by simp at hs ⊢; tauto))

/-- `splitLargeParagraph` on a trimmed non-empty text always produces at
least one chunk, for any configuration, stats, metadata and sequence. -/
theorem splitLargeParagraph_ne_nil (t : String) (config : ChunkingConfig)
    (stats : ChunkingStats) (meta : ChunkMetadata) (sq : Nat)
    (ht : jsTrim t = t) (hne : t ≠ "") :
    (splitLargeParagraph t config stats meta sq).1 ≠ [] := by
  have hI := sentFold_I config meta (splitIntoSentences t) ⟨[], "", 0, sq, stats⟩
    (splitIntoSentences_ne_nil t) (splitIntoSentences_mem_nonWs t ht hne)
  rw [splitLargeParagraph]
  split
  · simp
  · next hcur =>
    rcases hI with hchunks | hpos
    · exact hchunks
    · exact absurd hpos hcur

/-! ## Stats bookkeeping lemmas -/

/-- Flushing the sentence buffer leaves `splitCount` unchanged. -/
theorem sentFlush_splitCount (config : ChunkingConfig) (meta : ChunkMetadata) (acc : SentAcc) :
    (sentFlush config meta acc).stats.splitCount = acc.stats.splitCount := by
  rw [sentFlush]
  split <;> rfl

/-- Emitting word fragments leaves `splitCount` unchanged. -/
theorem sentWordChunkStep_foldl_splitCount (meta : ChunkMetadata) :
    ∀ (wcs : List TextFrag) (a : SentAcc),
      ((wcs.foldl (sentWordChunkStep meta) a).stats).splitCount = a.stats.splitCount
  | [], _ => rfl
  | wc :: rest, a => by
    rw [List.foldl_cons]
    rw [sentWordChunkStep_foldl_splitCount meta rest (sentWordChunkStep meta a wc)]
    rfl

/-- A sentence step leaves `splitCount` unchanged. -/
theorem splitLargeParagraphStep_splitCount (config : ChunkingConfig) (meta : ChunkMetadata)
    (acc : SentAcc) (s : String) :
    (splitLargeParagraphStep config meta acc s).stats.splitCount = acc.stats.splitCount := by
  simp only [splitLargeParagraphStep]
  split
  · rw [show ({ (splitByWords s config).foldl (sentWordChunkStep meta)
        (sentFlush config meta acc) with curText := "", curTok := 0 } : SentAcc).stats =
      ((splitByWords s config).foldl (sentWordChunkStep meta)
        (sentFlush config meta acc)).stats from rfl]
    rw [sentWordChunkStep_foldl_splitCount meta _ (sentFlush config meta acc)]
    exact sentFlush_splitCount config meta acc
  · repeat' split
    all_goals first
      | rfl
      | exact sentFlush_splitCount config meta acc

/-- The sentence fold leaves `splitCount` unchanged. -/
theorem sentFold_splitCount (config : ChunkingConfig) (meta : ChunkMetadata) :
    ∀ (ss : List String) (acc : SentAcc),
      ((ss.foldl (splitLargeParagraphStep config meta) acc).stats).splitCount =
        acc.stats.splitCount
  | [], _ => rfl
  | x :: xs, acc => by
    rw [List.foldl_cons, sentFold_splitCount config meta xs _,
      splitLargeParagraphStep_splitCount]

/-- `splitLargeParagraph` leaves `splitCount` unchanged (the caller
increments it). -/
theorem splitLargeParagraph_splitCount (t : String) (config : ChunkingConfig)
    (stats : ChunkingStats) (meta : ChunkMetadata) (sq : Nat) :
    (splitLargeParagraph t config stats meta sq).2.splitCount = stats.splitCount := by
  rw [splitLargeParagraph]
  split
  · exact sentFold_splitCount config meta (splitIntoSentences t) _
  · exact sentFold_splitCount config meta (splitIntoSentences t) _

/-- A merger step leaves `splitCount` unchanged. -/
theorem mergeStep_splitCount (config : ChunkingConfig) (acc : MergeAcc) (ch : ChunkData) :
    (mergeStep config acc ch).stats.splitCount = acc.stats.splitCount := by
  obtain ⟨m, cur?, st⟩ := acc
  cases cur? with
  | none => rfl
  | some cur =>
    simp only [mergeStep]
    split
    · split <;> rfl
    · rfl

/-- The merger fold leaves `splitCount` unchanged. -/
theorem foldl_mergeStep_splitCount (config : ChunkingConfig) :
    ∀ (l : List ChunkData) (acc : MergeAcc),
      ((l.foldl (mergeStep config) acc).stats).splitCount = acc.stats.splitCount
  | [], _ => rfl
  | x :: xs, acc => by
    rw [List.foldl_cons, foldl_mergeStep_splitCount config xs _, mergeStep_splitCount]

/-- The merger pass leaves `splitCount` unchanged. -/
theorem mergeSmallChunks_splitCount (chunks : List ChunkData) (config : ChunkingConfig)
    (stats : ChunkingStats) :
    (mergeSmallChunks chunks config stats).2.splitCount = stats.splitCount := by
  rw [mergeSmallChunks]
  split
  · rfl
  · rcases hc : (chunks.foldl (mergeStep config) ⟨[], none, stats⟩).cur with _ | cur
    all_goals simp only [hc]
    · exact foldl_mergeStep_splitCount config chunks _
    · show ((chunks.foldl (mergeStep config) ⟨[], none, stats⟩).stats).splitCount =
        stats.splitCount
      exact foldl_mergeStep_splitCount config chunks _

/-- The final stats recomputation leaves `splitCount` unchanged. -/
theorem finalizeStats_splitCount (stats : ChunkingStats) (chunks : List ChunkData) :
    (finalizeStats stats chunks).splitCount = stats.splitCount := by
  rw [finalizeStats]
  split <;> rfl

/-- The merger step always leaves a running buffer. -/
theorem mergeStep_cur_isSome (config : ChunkingConfig) (acc : MergeAcc) (ch : ChunkData) :
    ((mergeStep config acc ch).cur).isSome := by
  obtain ⟨m, cur?, st⟩ := acc
  cases cur? with
  | none => rfl
  | some cur =>
    simp only [mergeStep]
    split
    · split <;> rfl
    · rfl

/-- After folding a non-empty chunk list, the merger holds a buffer. -/
theorem foldl_mergeStep_isSome (config : ChunkingConfig) :
    ∀ (l : List ChunkData) (acc : MergeAcc), l ≠ [] →
      ((l.foldl (mergeStep config) acc).cur).isSome
  | [], _, h => absurd rfl h
  | [x], acc, _ => by
    rw [List.foldl_cons, List.foldl_nil]
    exact mergeStep_cur_isSome config acc x
  | x :: y :: rest, acc, _ => by
    rw [List.foldl_cons]
    exact foldl_mergeStep_isSome config (y :: rest) _ (by simp)

/-- The merger never empties a non-empty chunk list. -/
theorem mergeSmallChunks_ne_nil (chunks : List ChunkData) (config : ChunkingConfig)
    (stats : ChunkingStats) (h : chunks ≠ []) :
    (mergeSmallChunks chunks config stats).1 ≠ [] := by
  rw [mergeSmallChunks]
  split
  · exact h
  · rcases hc : (chunks.foldl (mergeStep config) ⟨[], none, stats⟩).cur with _ | cur
    · have := foldl_mergeStep_isSome config chunks ⟨[], none, stats⟩ h
      rw [hc] at this
      cases this
    · simp only [hc]
      simp

/-! ## C4 amended: the splitter path on a single over-long paragraph -/

/-- The big-paragraph branch of the page-strategy step: it always emits
the splitter's chunks, resets the buffer, and increments `splitCount`. -/
theorem chunkByPagesStep_big (config : ChunkingConfig) (pg : PDFPage) (acc : PageAcc)
    (p : String) (htp : jsTrim p ≠ "")
    (hpt : config.maxTokens < countTokens (jsTrim p))
    (hsc : ∀ (st : ChunkingStats) (sq : Nat),
      (splitLargeParagraph (jsTrim p) config st
        ⟨none, none, some pg.pageNumber, some pg.pageNumber, none⟩ sq).1 ≠ []) :
    (chunkByPagesStep config pg acc p).chunks ≠ [] ∧
    (chunkByPagesStep config pg acc p).cur.tokenCount = 0 ∧
    (chunkByPagesStep config pg acc p).stats.splitCount = acc.stats.splitCount + 1 := by
  simp only [chunkByPagesStep]
  rw [if_neg htp, if_pos hpt]
  refine ⟨?_, rfl, ?_⟩
  · intro hnil
    split at hnil
    · exact hsc _ _ (List.append_eq_nil.mp hnil).2
    · exact hsc _ _ (List.append_eq_nil.mp hnil).2
  · rw [splitLargeParagraph_splitCount]
    split <;> rfl

/-- C4 amended: for every document consisting of a single paragraph whose
token count exceeds `maxTokens` (a single page whose text forms exactly
one paragraph, with no sections so the page strategy runs), the call
succeeds, the paragraph is routed through the splitter exactly once
(`splitCount = 1`), and the result contains at least one chunk.  The
original claim's stronger guarantees — at least two chunks, and no
non-atomic chunk above `maxTokens` — do not hold (see the
counterexample). -/
theorem C4_amended_split_produces_output (svcConfig : ChunkingConfig)
    (input : ChunkingInput) (pdf : ParsedPDF) (pg : PDFPage) (P : String)
    (h1 : input.parsedPdf = some pdf) (h2 : jsTrim pdf.fullText ≠ "")
    (h3 : pdf.sections = []) (h4 : pdf.pages = [pg])
    (h5 : splitIntoParagraphs pg.text = [P])
    (h6 : jsTrim P = P) (h7 : P ≠ "")
    (h8 : (mergeConfig svcConfig input.config).maxTokens < countTokens P) :
    (chunkDocument svcConfig input).success = true ∧
    1 ≤ (chunkDocument svcConfig input).chunks.length ∧
    (chunkDocument svcConfig input).stats.splitCount = 1 := by
  rw [chunkDocument_of_valid svcConfig input pdf h1 h2]
  have hcond : ¬ ((mergeConfig svcConfig input.config).respectSectionBoundaries ∧
      pdf.sections.length > 0) := by
    rw [h3]
    simp
  have hpipe : chunkPipeline (mergeConfig svcConfig input.config) pdf =
      mergeSmallChunks (chunkByPages pdf (mergeConfig svcConfig input.config) initialStats).1
        (mergeConfig svcConfig input.config)
        (chunkByPages pdf (mergeConfig svcConfig input.config) initialStats).2 := by
    simp only [chunkPipeline]
    rw [if_neg hcond]
  have hstep := chunkByPagesStep_big (mergeConfig svcConfig input.config) pg
    ⟨[], ⟨"", 0, [], none⟩, 0, initialStats⟩ P
    (by rw [h6]; exact h7) (by rw [h6]; exact h8)
    (by
      intro st sq
      rw [h6]
      exact splitLargeParagraph_ne_nil P (mergeConfig svcConfig input.config) st _ sq h6 h7)
  obtain ⟨hne, hcur, hsplit⟩ := hstep
  have hpages : chunkByPages pdf (mergeConfig svcConfig input.config) initialStats =
      ((chunkByPagesStep (mergeConfig svcConfig input.config) pg
          ⟨[], ⟨"", 0, [], none⟩, 0, initialStats⟩ P).chunks,
       (chunkByPagesStep (mergeConfig svcConfig input.config) pg
          ⟨[], ⟨"", 0, [], none⟩, 0, initialStats⟩ P).stats) := by
    rw [chunkByPages, h4]
    rw [List.foldl_cons, List.foldl_nil, h5, List.foldl_cons, List.foldl_nil]
    rw [if_neg (by rw [hcur]; exact Nat.lt_irrefl 0)]
  rw [hpipe, hpages]
  refine ⟨rfl, ?_, ?_⟩
  · show 1 ≤ (renumber (mergeSmallChunks _ _ _).1).length
    rw [renumber, renumberFrom_length]
    have := mergeSmallChunks_ne_nil
      (chunkByPagesStep (mergeConfig svcConfig input.config) pg
        ⟨[], ⟨"", 0, [], none⟩, 0, initialStats⟩ P).chunks
      (mergeConfig svcConfig input.config)
      (chunkByPagesStep (mergeConfig svcConfig input.config) pg
        ⟨[], ⟨"", 0, [], none⟩, 0, initialStats⟩ P).stats hne
    exact Nat.succ_le_of_lt (List.length_pos.mpr this)
  · show (finalizeStats (mergeSmallChunks _ _ _).2 _).splitCount = 1
    rw [finalizeStats_splitCount, mergeSmallChunks_splitCount, hsplit]
    rfl

/-! ## Trim fixpoint infrastructure -/

/-- `dropWhile` never lengthens a list. -/
theorem length_dropWhile_le (p : Char → Bool) :
    ∀ l : List Char, (l.dropWhile p).length ≤ l.length
  | [] => Nat.le_refl _
  | c :: t => by
    rw [List.dropWhile_cons]
    split
    · exact Nat.le_trans (length_dropWhile_le p t) (by simp)
    · exact Nat.le_refl _

/-- Trimming never lengthens a character list. -/
theorem length_jsTrimList_le (l : List Char) : (jsTrimList l).length ≤ l.length := by
  rw [jsTrimList, List.length_reverse]
  calc ((l.dropWhile isJsWs).reverse.dropWhile isJsWs).length
      ≤ (l.dropWhile isJsWs).reverse.length := length_dropWhile_le isJsWs _
    _ = (l.dropWhile isJsWs).length := List.length_reverse _
    _ ≤ l.length := length_dropWhile_le isJsWs l

/-- Trimming a list that starts with whitespace strictly shortens it. -/
theorem jsTrimList_cons_ws_lt (c : Char) (t : List Char) (hc : isJsWs c = true) :
    (jsTrimList (c :: t)).length < (c :: t).length := by
  rw [jsTrimList, List.dropWhile_cons, if_pos hc, List.length_reverse]
  calc ((t.dropWhile isJsWs).reverse.dropWhile isJsWs).length
      ≤ (t.dropWhile isJsWs).reverse.length := length_dropWhile_le isJsWs _
    _ = (t.dropWhile isJsWs).length := List.length_reverse _
    _ ≤ t.length := length_dropWhile_le isJsWs t
    _ < (c :: t).length := by simp

/-- Trimming a list that ends with whitespace strictly shortens it. -/
theorem jsTrimList_last_ws_lt (l : List Char) (c : Char) (t : List Char)
    (hrev : l.reverse = c :: t) (hc : isJsWs c = true) :
    (jsTrimList l).length < l.length := by
  rcases hl : l with _ | ⟨d, l'⟩
  · rw [hl] at hrev
    simp at hrev
  · subst hl
    by_cases hd : isJsWs d = true
    · exact jsTrimList_cons_ws_lt d l' hd
    · rw [jsTrimList, List.dropWhile_cons, if_neg hd, hrev, List.dropWhile_cons,
        if_pos hc, List.length_reverse]
      calc (t.dropWhile isJsWs).length
          ≤ t.length := length_dropWhile_le isJsWs t
        _ < (c :: t).length := by simp
        _ = (d :: l').reverse.length := by rw [hrev]
        _ = (d :: l').length := List.length_reverse _

/-- A list whose first and last characters are non-whitespace is its own
trim. -/
theorem jsTrimList_fix (l : List Char)
    (hhead : ∀ c t, l = c :: t → isJsWs c = false)
    (hlast : ∀ c t, l.reverse = c :: t → isJsWs c = false) :
    jsTrimList l = l := by
  rcases hl : l with _ | ⟨c, t⟩
  · rfl
  · subst hl
    rw [jsTrimList, List.dropWhile_cons,
      if_neg (by rw [hhead c t rfl]; simp)]
    rcases hr : (c :: t).reverse with _ | ⟨c', t'⟩
    · simp at hr
    · rw [List.dropWhile_cons, if_neg (by rw [hlast c' t' hr]; simp), ← hr,
        List.reverse_reverse]

/-- `String.mk` of a string's data is the string. -/
theorem str_mk_data (s : String) : String.mk s.data = s := by
  cases s
  rfl

/-- A string with empty data is the empty string. -/
theorem str_of_data_nil (s : String) (h : s.data = []) : s = "" := by
  cases s
  cases h
  rfl

/-- The first character of a trim-fixed string is non-whitespace. -/
theorem trimmed_head_nonWs (a : String) (ha : jsTrim a = a) (c : Char) (t : List Char)
    (hd : a.data = c :: t) : isJsWs c = false := by
  by_contra hc
  rw [Bool.not_eq_false] at hc
  have h1 : (jsTrimList a.data).length < a.data.length := by
    rw [hd]
    exact jsTrimList_cons_ws_lt c t hc
  have h2 : jsTrimList a.data = a.data := congrArg String.data ha
  rw [h2] at h1
  exact Nat.lt_irrefl _ h1

/-- The last character of a trim-fixed string is non-whitespace. -/
theorem trimmed_last_nonWs (a : String) (ha : jsTrim a = a) (c : Char) (t : List Char)
    (hd : a.data.reverse = c :: t) : isJsWs c = false := by
  by_contra hc
  rw [Bool.not_eq_false] at hc
  have h1 : (jsTrimList a.data).length < a.data.length :=
    jsTrimList_last_ws_lt a.data c t hd hc
  have h2 : jsTrimList a.data = a.data := congrArg String.data ha
  rw [h2] at h1
  exact Nat.lt_irrefl _ h1

/-- Concatenating trim-fixed strings around any middle is trim-fixed. -/
theorem trimFix_append (a m b : String) (ha : trimFix a) (hb : trimFix b) :
    trimFix (a ++ m ++ b) := by
  obtain ⟨hane, haf⟩ := ha
  obtain ⟨hbne, hbf⟩ := hb
  refine ⟨str_append_ne _ b hbne, ?_⟩
  have hdata : (a ++ m ++ b).data = a.data ++ m.data ++ b.data := by
    rw [String.data_append, String.data_append]
  have hfix : jsTrimList ((a ++ m ++ b).data) = (a ++ m ++ b).data := by
    apply jsTrimList_fix
    · intro c t hct
      rcases hda : a.data with _ | ⟨ca, ta⟩
      · exact absurd (str_of_data_nil a hda) hane
      · rw [hdata, hda] at hct
        have : ca = c := by
          have := congrArg List.head? hct
          simpa using this
        subst this
        exact trimmed_head_nonWs a haf ca ta hda
    · intro c t hct
      rcases hdb : b.data.reverse with _ | ⟨cb, tb⟩
      · have : b.data = [] := by simpa using congrArg List.reverse hdb
        exact absurd (str_of_data_nil b this) hbne
      · rw [hdata] at hct
        rw [List.reverse_append, hdb] at hct
        have : cb = c := by
          have := congrArg List.head? hct
          simpa using this
        subst this
        exact trimmed_last_nonWs b hbf cb tb hdb
  show String.mk (jsTrimList _) = _
  rw [hfix, str_mk_data]

/-- Option form of `dropWhile_head_false`. -/
theorem dropWhile_head?_false (p : Char → Bool) (l : List Char) (c : Char)
    (h : (l.dropWhile p).head? = some c) : p c = false := by
  rcases hd : l.dropWhile p with _ | ⟨c', t⟩
  · rw [hd] at h
    cases h
  · rw [hd] at h
    cases h
    exact dropWhile_head_false p l c t hd

/-- `getLast?` is untouched by a `dropWhile` that leaves something. -/
theorem getLast?_dropWhile (p : Char → Bool) (m : List Char) (h : m.dropWhile p ≠ []) :
    (m.dropWhile p).getLast? = m.getLast? := by
  obtain ⟨pre, hpre⟩ := List.dropWhile_suffix (l := m) p
  conv_rhs => rw [← hpre]
  exact (List.getLast?_append_of_ne_nil pre h).symm

/-- Trimming is idempotent. -/
theorem jsTrim_idem (s : String) : jsTrim (jsTrim s) = jsTrim s := by
  have hfix : jsTrimList ((jsTrim s).data) = (jsTrim s).data := by
    apply jsTrimList_fix
    · intro c t hct
      have hct' : ((s.data.dropWhile isJsWs).reverse.dropWhile isJsWs).reverse = c :: t :=
        hct
      have hqne : (s.data.dropWhile isJsWs).reverse.dropWhile isJsWs ≠ [] := by
        intro h0
        rw [h0] at hct'
        cases hct'
      have h1 : ((s.data.dropWhile isJsWs).reverse.dropWhile isJsWs).getLast? =
          (s.data.dropWhile isJsWs).head? := by
        rw [getLast?_dropWhile isJsWs _ hqne, List.getLast?_reverse]
      have h3 := List.getLast?_reverse
        (((s.data.dropWhile isJsWs).reverse.dropWhile isJsWs).reverse)
      rw [List.reverse_reverse] at h3
      rw [hct', h1] at h3
      exact dropWhile_head?_false isJsWs s.data c h3
    · intro c t hct
      have h0 : (s.data.dropWhile isJsWs).reverse.dropWhile isJsWs = c :: t := by
        have h1 : ((s.data.dropWhile isJsWs).reverse.dropWhile isJsWs).reverse.reverse =
            c :: t := hct
        rwa [List.reverse_reverse] at h1
      exact dropWhile_head_false isJsWs _ c t h0
  show String.mk (jsTrimList ((jsTrim s).data)) = jsTrim s
  rw [hfix, str_mk_data]

/-- The trim of any string is empty or trim-fixed. -/
theorem jsTrim_trimFix_or_empty (s : String) : jsTrim s = "" ∨ trimFix (jsTrim s) := by
  by_cases h : jsTrim s = ""
  · exact Or.inl h
  · exact Or.inr ⟨h, jsTrim_idem s⟩

/-- A non-empty string of non-whitespace characters is trim-fixed. -/
theorem trimFix_of_allNonWs (w : String) (hne : w ≠ "") (hnw : allNonWs w.data) :
    trimFix w := by
  refine ⟨hne, ?_⟩
  have hfix : jsTrimList w.data = w.data := by
    apply jsTrimList_fix
    · intro c t hct
      exact hnw c (by rw [hct]; simp)
    · intro c t hct
      refine hnw c ?_
      have : c ∈ w.data.reverse := by rw [hct]; simp
      simpa using this
  show String.mk (jsTrimList w.data) = w
  rw [hfix, str_mk_data]

/-- Every field produced by the `/\s+/` splitter contains only
non-whitespace characters (given a whitespace-free field accumulator). -/
theorem splitWsImpl_mem_nonWs :
    ∀ (cs : List Char) (st : WsState),
      (st = .sep ∨ ∃ acc, st = .field acc ∧ allNonWs acc) →
      ∀ w ∈ splitWsImpl cs st, allNonWs w
  | [], .field acc, h, w, hw => by
    rcases h with h | ⟨acc', heq, hacc⟩
    · cases h
    · cases heq
      rw [show splitWsImpl [] (.field acc) = [acc.reverse] from rfl] at hw
      rcases List.mem_singleton.mp hw with rfl
      intro c hc
      exact hacc c (by simpa using hc)
  | [], .sep, _, w, hw => by
    rw [show splitWsImpl [] .sep = [[]] from rfl] at hw
    rcases List.mem_singleton.mp hw with rfl
    intro c hc
    cases hc
  | c :: rest, .field acc, h, w, hw => by
    rcases h with h | ⟨acc', heq, hacc⟩
    · cases h
    · cases heq
      by_cases hws : isJsWs c = true
      · rw [show splitWsImpl (c :: rest) (.field acc) =
            acc.reverse :: splitWsImpl rest .sep from by
          simp [splitWsImpl, hws]] at hw
        rcases List.mem_cons.mp hw with rfl | hw'
        · intro d hd
          exact hacc d (by simpa using hd)
        · exact splitWsImpl_mem_nonWs rest .sep (Or.inl rfl) w hw'
      · rw [show splitWsImpl (c :: rest) (.field acc) =
            splitWsImpl rest (.field (c :: acc)) from by simp [splitWsImpl, hws]] at hw
        refine splitWsImpl_mem_nonWs rest (.field (c :: acc)) ?_ w hw
        refine Or.inr ⟨c :: acc, rfl, ?_⟩
        intro d hd
        rcases List.mem_cons.mp hd with rfl | hd'
        · exact Bool.eq_false_iff.mpr hws
        · exact hacc d hd'
  | c :: rest, .sep, _, w, hw => by
    by_cases hws : isJsWs c = true
    · rw [show splitWsImpl (c :: rest) .sep = splitWsImpl rest .sep from by
        simp [splitWsImpl, hws]] at hw
      exact splitWsImpl_mem_nonWs rest .sep (Or.inl rfl) w hw
    · rw [show splitWsImpl (c :: rest) .sep = splitWsImpl rest (.field [c]) from by
        simp [splitWsImpl, hws]] at hw
      refine splitWsImpl_mem_nonWs rest (.field [c]) ?_ w hw
      refine Or.inr ⟨[c], rfl, ?_⟩
      intro d hd
      rcases List.mem_singleton.mp hd with rfl
      exact Bool.eq_false_iff.mpr hws

/-- Every word of `splitWhitespace` is whitespace-free. -/
theorem splitWhitespace_mem_nonWs (s : String) (w : String) (hw : w ∈ splitWhitespace s) :
    allNonWs w.data := by
  rw [splitWhitespace, List.mem_map] at hw
  obtain ⟨w', hw', rfl⟩ := hw
  exact splitWsImpl_mem_nonWs s.data (.field []) (Or.inr ⟨[], rfl, by intro c hc; cases hc⟩)
    w' hw'

/-- The space-join of non-empty whitespace-free words is trim-fixed
(`String.intercalate.go` recursion). -/
theorem intercalate_go_trimFix :
    ∀ (l : List String) (acc : String), trimFix acc →
      (∀ w ∈ l, w ≠ "" ∧ allNonWs w.data) →
      trimFix (String.intercalate.go acc " " l)
  | [], acc, ha, _ => ha
  | b :: bs, acc, ha, hl => by
    rw [show String.intercalate.go acc " " (b :: bs) =
        String.intercalate.go (acc ++ " " ++ b) " " bs from rfl]
    refine intercalate_go_trimFix bs (acc ++ " " ++ b) ?_ (fun w hw => hl w (by simp [hw]))
    exact trimFix_append acc " " b ha
      (trimFix_of_allNonWs b (hl b (by simp)).1 (hl b (by simp)).2)

/-- The space-join of a non-empty list of non-empty whitespace-free words
is trim-fixed. -/
theorem intercalate_trimFix (l : List String) (hne : l ≠ [])
    (hl : ∀ w ∈ l, w ≠ "" ∧ allNonWs w.data) :
    trimFix (String.intercalate " " l) := by
  rcases l with _ | ⟨a, as⟩
  · exact absurd rfl hne
  · rw [show String.intercalate " " (a :: as) = String.intercalate.go a " " as from rfl]
    exact intercalate_go_trimFix as a
      (trimFix_of_allNonWs a (hl a (by simp)).1 (hl a (by simp)).2)
      (fun w hw => hl w (by simp [hw]))

/-! ## Chunk consistency: every pipeline chunk's token count matches its text -/

/-- `countTokens` vanishes exactly on the empty string. -/
theorem countTokens_eq_zero (s : String) : countTokens s = 0 ↔ s = "" := by
  constructor
  · intro h
    by_contra hne
    have := countTokens_pos s hne
    omega
  · intro h
    subst h
    decide

/-- Every paragraph produced by `splitIntoParagraphs` is trim-fixed. -/
theorem splitIntoParagraphs_trimFix (text p : String)
    (hp : p ∈ splitIntoParagraphs text) : trimFix p := by
  rw [splitIntoParagraphs, List.mem_filter] at hp
  obtain ⟨hmem, hne⟩ := hp
  rw [List.mem_map] at hmem
  obtain ⟨x, _, rfl⟩ := hmem
  exact ⟨by simpa using hne, jsTrim_idem x⟩

/-- Every sentence of a trim-fixed text is trim-fixed. -/
theorem splitIntoSentences_trimFix (t : String) (ht : trimFix t)
    (s : String) (hs : s ∈ splitIntoSentences t) : trimFix s := by
  rw [splitIntoSentences] at hs
  split at hs
  · rw [List.mem_filter] at hs
    obtain ⟨hmap, hne⟩ := hs
    rw [List.mem_map] at hmap
    obtain ⟨x, _, hx⟩ := hmap
    subst hx
    exact ⟨by simpa using hne, jsTrim_idem x⟩
  · rw [List.mem_singleton] at hs
    subst hs
    exact ht

/-- A chunk created from a segment whose stored count matches its (empty
or trim-fixed) text is consistent. -/
theorem createChunk_consistent (seg : TextSegment) (meta : ChunkMetadata) (q : Nat)
    (h : seg.tokenCount = countTokens seg.text)
    (h2 : seg.text = "" ∨ trimFix seg.text) :
    chunkConsistent (createChunk seg meta q) := by
  rw [chunkConsistent]
  simp only [createChunk]
  by_cases hz : seg.tokenCount = 0
  · rw [if_pos hz]
  · rw [if_neg hz]
    have htne : seg.text ≠ "" := by
      intro he
      rw [he] at h
      rw [h] at hz
      exact hz (by decide)
    rcases h2 with he | hfix
    · exact absurd he htne
    · rw [hfix.2, ← h]

/-- One word-splitter step preserves the state invariant, for any
whitespace-free incoming word. -/
theorem splitByWordsStep_good (config : ChunkingConfig) (acc : WordAcc) (w : String)
    (h : wordAccGood acc) (hw : allNonWs w.data) :
    wordAccGood (splitByWordsStep config acc w) := by
  obtain ⟨hc, hcw⟩ := h
  simp only [splitByWordsStep]
  by_cases hwe : w = ""
  · rw [if_pos hwe]
    exact ⟨hc, hcw⟩
  · rw [if_neg hwe]
    have hkeep : ∀ x ∈ acc.cw ++ [w], x ≠ "" ∧ allNonWs x.data := by
      intro x hx
      rcases List.mem_append.mp hx with hx | hx
      · exact hcw x hx
      · rw [List.mem_singleton] at hx
        subst hx
        exact ⟨hwe, hw⟩
    by_cases hlen : acc.cw.length > 0
    · rw [if_pos hlen]
      by_cases hnt : acc.ct + countTokens w + 1 > config.targetTokens
      · rw [if_pos ⟨hnt, hlen⟩]
        constructor
        · intro f hf
          rcases List.mem_append.mp hf with hf | hf
          · exact hc f hf
          · rw [List.mem_singleton] at hf
            subst hf
            exact ⟨rfl, Or.inr (intercalate_trimFix acc.cw (List.length_pos.mp hlen) hcw)⟩
        · intro x hx
          rcases List.mem_append.mp hx with hx | hx
          · exact hcw x (List.mem_of_mem_drop hx)
          · rw [List.mem_singleton] at hx
            subst hx
            exact ⟨hwe, hw⟩
      · rw [if_neg (fun hco => hnt hco.1)]
        exact ⟨hc, hkeep⟩
    · rw [if_neg hlen, if_neg (fun hco => hlen hco.2)]
      exact ⟨hc, hkeep⟩

/-- Fold form of `splitByWordsStep_good`. -/
theorem splitByWords_foldl_good (config : ChunkingConfig) :
    ∀ (ws : List String) (acc : WordAcc),
      wordAccGood acc → (∀ w ∈ ws, allNonWs w.data) →
      wordAccGood (ws.foldl (splitByWordsStep config) acc)
  | [], acc, h, _ => h
  | x :: xs, acc, h, hall => by
    rw [List.foldl_cons]
    exact splitByWords_foldl_good config xs _
      (splitByWordsStep_good config acc x h (hall x (by simp)))
      (fun w hw => hall w (by simp [hw]))

/-- Every fragment produced by the word splitter is good: its token count
is the count of its (trim-fixed) text. -/
theorem splitByWords_fragGood (s : String) (config : ChunkingConfig) (f : TextFrag)
    (hf : f ∈ splitByWords s config) : fragGood f := by
  have hacc : wordAccGood ((splitWhitespace s).foldl (splitByWordsStep config) ⟨[], [], 0⟩) :=
    splitByWords_foldl_good config (splitWhitespace s) ⟨[], [], 0⟩
      ⟨fun f hf => absurd hf (List.not_mem_nil f), fun w hw => absurd hw (List.not_mem_nil w)⟩
      (fun w hw => splitWhitespace_mem_nonWs s w hw)
  rw [splitByWords] at hf
  split at hf
  · next hlen =>
    rcases List.mem_append.mp hf with hf | hf
    · exact hacc.1 f hf
    · rw [List.mem_singleton] at hf
      subst hf
      exact ⟨rfl, Or.inr (intercalate_trimFix _ (List.length_pos.mp hlen) hacc.2)⟩
  · exact hacc.1 f hf

/-- Flushing the sentence buffer preserves the sentence-loop invariant. -/
theorem sentFlush_good (config : ChunkingConfig) (meta : ChunkMetadata) (acc : SentAcc)
    (h : sentGood acc) : sentGood (sentFlush config meta acc) := by
  rw [sentFlush]
  split
  · refine ⟨?_, h.2.1, h.2.2⟩
    intro ch hch
    rcases List.mem_append.mp hch with hch | hch
    · exact h.1 ch hch
    · rw [List.mem_singleton] at hch
      subst hch
      exact createChunk_consistent _ meta _ h.2.1 h.2.2
  · exact h

/-- Emitting one good word-splitter fragment preserves the sentence-loop
invariant. -/
theorem sentWordChunkStep_good (meta : ChunkMetadata) (a : SentAcc) (wc : TextFrag)
    (h : sentGood a) (hwc : fragGood wc) : sentGood (sentWordChunkStep meta a wc) := by
  refine ⟨?_, h.2.1, h.2.2⟩
  intro ch hch
  simp only [sentWordChunkStep, List.mem_append, List.mem_singleton] at hch
  rcases hch with hch | rfl
  · exact h.1 ch hch
  · exact createChunk_consistent _ meta _ hwc.1 hwc.2

/-- Fold form of `sentWordChunkStep_good`. -/
theorem sentWordChunkStep_foldl_good (meta : ChunkMetadata) :
    ∀ (wcs : List TextFrag) (a : SentAcc),
      sentGood a → (∀ wc ∈ wcs, fragGood wc) →
      sentGood (wcs.foldl (sentWordChunkStep meta) a)
  | [], a, h, _ => h
  | wc :: rest, a, h, hall => by
    rw [List.foldl_cons]
    exact sentWordChunkStep_foldl_good meta rest _
      (sentWordChunkStep_good meta a wc h (hall wc (by simp)))
      (fun x hx => hall x (by simp [hx]))

/-- One step of the sentence loop preserves the invariant, for any
trim-fixed sentence. -/
theorem splitLargeParagraphStep_good (config : ChunkingConfig) (meta : ChunkMetadata)
    (acc : SentAcc) (s : String) (h : sentGood acc) (hs : trimFix s) :
    sentGood (splitLargeParagraphStep config meta acc s) := by
  simp only [splitLargeParagraphStep]
  split
  · refine ⟨?_, rfl, Or.inl rfl⟩
    intro ch hch
    exact (sentWordChunkStep_foldl_good meta (splitByWords s config)
      (sentFlush config meta acc) (sentFlush_good config meta acc h)
      (fun wc hwc => splitByWords_fragGood s config wc hwc)).1 ch hch
  · by_cases hpos : acc.curTok > 0
    · have hcne : acc.curText ≠ "" := by
        intro he
        rw [h.2.1, he] at hpos
        exact absurd hpos (by decide)
      rw [if_pos hpos]
      split
      · exact ⟨(sentFlush_good config meta acc h).1, rfl, Or.inr hs⟩
      · exact ⟨h.1, rfl,
          Or.inr (trimFix_append acc.curText " " s ((h.2.2).resolve_left hcne) hs)⟩
    · have hz : acc.curText = "" := by
        have h0 : acc.curTok = 0 := by omega
        have hct := h.2.1
        rw [h0] at hct
        exact (countTokens_eq_zero acc.curText).mp hct.symm
      have hnne : ¬ acc.curText ≠ "" := fun hne => hne hz
      rw [if_neg hpos]
      split
      · exact ⟨(sentFlush_good config meta acc h).1, rfl, Or.inr hs⟩
      · exact ⟨h.1, rfl, Or.inr hs⟩

/-- The sentence fold preserves the invariant over any list of trim-fixed
sentences. -/
theorem sentFold_good (config : ChunkingConfig) (meta : ChunkMetadata) :
    ∀ (ss : List String) (acc : SentAcc),
      sentGood acc → (∀ s ∈ ss, trimFix s) →
      sentGood (ss.foldl (splitLargeParagraphStep config meta) acc)
  | [], acc, h, _ => h
  | x :: xs, acc, h, hall => by
    rw [List.foldl_cons]
    exact sentFold_good config meta xs _
      (splitLargeParagraphStep_good config meta acc x h (hall x (by simp)))
      (fun s hs => hall s (by simp [hs]))

/-- Every chunk produced by `splitLargeParagraph` on a trim-fixed text is
consistent. -/
theorem splitLargeParagraph_consistent (t : String) (config : ChunkingConfig)
    (stats : ChunkingStats) (meta : ChunkMetadata) (sq : Nat) (ht : trimFix t)
    (ch : ChunkData) (hch : ch ∈ (splitLargeParagraph t config stats meta sq).1) :
    chunkConsistent ch := by
  have hacc : sentGood ((splitIntoSentences t).foldl (splitLargeParagraphStep config meta)
      ⟨[], "", 0, sq, stats⟩) :=
    sentFold_good config meta (splitIntoSentences t) ⟨[], "", 0, sq, stats⟩
      ⟨fun c hc => absurd hc (List.not_mem_nil c), rfl, Or.inl rfl⟩
      (fun s hs => splitIntoSentences_trimFix t ht s hs)
  rw [splitLargeParagraph] at hch
  split at hch
  · rcases List.mem_append.mp hch with hch | hch
    · exact hacc.1 ch hch
    · rw [List.mem_singleton] at hch
      subst hch
      exact createChunk_consistent _ meta _ hacc.2.1 hacc.2.2
  · exact hacc.1 ch hch

/-- One step of the section-strategy paragraph loop preserves the
invariant. -/
theorem processSectionStep_good (sec : PDFSection) (config : ChunkingConfig)
    (meta : ChunkMetadata) (acc : SectionAcc) (p : String) (h : sectionAccGood acc) :
    sectionAccGood (processSectionStep sec config meta acc p) := by
  obtain ⟨hc, ht, htf⟩ := h
  have hflush : chunkConsistent (createChunk acc.cur meta acc.seq) :=
    createChunk_consistent _ meta _ ht htf
  simp only [processSectionStep]
  by_cases hemp : jsTrim p = ""
  · rw [if_pos hemp]
    exact ⟨hc, ht, htf⟩
  · rw [if_neg hemp]
    have htp : trimFix (jsTrim p) := ⟨hemp, jsTrim_idem p⟩
    by_cases hbig : countTokens (jsTrim p) > config.maxTokens
    · rw [if_pos hbig]
      by_cases hmin : acc.cur.tokenCount ≥ config.minTokens
      · rw [if_pos hmin]
        have hA1c : ∀ ch ∈ acc.chunks ++ [createChunk acc.cur meta acc.seq],
            chunkConsistent ch := by
          intro ch hch
          rcases List.mem_append.mp hch with hch | hch
          · exact hc ch hch
          · rw [List.mem_singleton] at hch
            subst hch
            exact hflush
        split
        · exact ⟨hA1c, rfl, Or.inl rfl⟩
        · next sc0 srest heq =>
          have hscm : ∀ ch ∈ sc0 :: srest, chunkConsistent ch := by
            rw [← heq]
            intro ch hch
            exact splitLargeParagraph_consistent _ _ _ _ _ htp ch hch
          split
          · split
            · refine ⟨?_, rfl, Or.inl rfl⟩
              intro ch hch
              rcases List.mem_append.mp hch with hch | hch
              · exact hA1c ch hch
              · rcases List.mem_cons.mp hch with rfl | hch
                · exact rfl
                · exact hscm ch (List.mem_cons_of_mem sc0 hch)
            · refine ⟨?_, rfl, Or.inl rfl⟩
              intro ch hch
              rcases List.mem_append.mp hch with hch | hch
              · rcases List.mem_append.mp hch with hch | hch
                · exact hA1c ch hch
                · rw [List.mem_singleton] at hch
                  subst hch
                  exact createChunk_consistent _ meta _ rfl (Or.inl rfl)
              · exact hscm ch hch
          · refine ⟨?_, rfl, Or.inl rfl⟩
            intro ch hch
            rcases List.mem_append.mp hch with hch | hch
            · exact hA1c ch hch
            · exact hscm ch hch
      · rw [if_neg hmin]
        split
        · exact ⟨hc, ht, htf⟩
        · next sc0 srest heq =>
          have hscm : ∀ ch ∈ sc0 :: srest, chunkConsistent ch := by
            rw [← heq]
            intro ch hch
            exact splitLargeParagraph_consistent _ _ _ _ _ htp ch hch
          split
          · split
            · refine ⟨?_, rfl, Or.inl rfl⟩
              intro ch hch
              rcases List.mem_append.mp hch with hch | hch
              · exact hc ch hch
              · rcases List.mem_cons.mp hch with rfl | hch
                · exact rfl
                · exact hscm ch (List.mem_cons_of_mem sc0 hch)
            · refine ⟨?_, rfl, Or.inl rfl⟩
              intro ch hch
              rcases List.mem_append.mp hch with hch | hch
              · rcases List.mem_append.mp hch with hch | hch
                · exact hc ch hch
                · rw [List.mem_singleton] at hch
                  subst hch
                  exact hflush
              · exact hscm ch hch
          · refine ⟨?_, ht, htf⟩
            intro ch hch
            rcases List.mem_append.mp hch with hch | hch
            · exact hc ch hch
            · exact hscm ch hch
    · rw [if_neg hbig]
      by_cases hpos : acc.cur.tokenCount > 0
      · have hcne : acc.cur.text ≠ "" := by
          intro he
          rw [ht, he] at hpos
          exact absurd hpos (by decide)
        rw [if_pos hpos]
        split
        · by_cases hmin : acc.cur.tokenCount ≥ config.minTokens
          · rw [if_pos hmin]
            refine ⟨?_, rfl, Or.inr htp⟩
            intro ch hch
            rcases List.mem_append.mp hch with hch | hch
            · exact hc ch hch
            · rw [List.mem_singleton] at hch
              subst hch
              exact hflush
          · rw [if_neg hmin]
            exact ⟨hc, rfl, Or.inr (trimFix_append acc.cur.text PARA_SEP (jsTrim p)
              (htf.resolve_left hcne) htp)⟩
        · exact ⟨hc, rfl, Or.inr (trimFix_append acc.cur.text PARA_SEP (jsTrim p)
            (htf.resolve_left hcne) htp)⟩
      · have hz : acc.cur.text = "" := by
          have h0 : acc.cur.tokenCount = 0 := by omega
          rw [h0] at ht
          exact (countTokens_eq_zero acc.cur.text).mp ht.symm
        have hnne : ¬ acc.cur.text ≠ "" := fun hne => hne hz
        rw [if_neg hpos]
        split
        · by_cases hmin : acc.cur.tokenCount ≥ config.minTokens
          · rw [if_pos hmin]
            refine ⟨?_, rfl, Or.inr htp⟩
            intro ch hch
            rcases List.mem_append.mp hch with hch | hch
            · exact hc ch hch
            · rw [List.mem_singleton] at hch
              subst hch
              exact hflush
          · rw [if_neg hmin]
            exact ⟨hc, rfl, Or.inr htp⟩
        · exact ⟨hc, rfl, Or.inr htp⟩

/-- Fold form of `processSectionStep_good`. -/
theorem processSection_foldl_good (sec : PDFSection) (config : ChunkingConfig)
    (meta : ChunkMetadata) :
    ∀ (ps : List String) (acc : SectionAcc), sectionAccGood acc →
      sectionAccGood (ps.foldl (processSectionStep sec config meta) acc)
  | [], acc, h => h
  | x :: xs, acc, h => by
    rw [List.foldl_cons]
    exact processSection_foldl_good sec config meta xs _
      (processSectionStep_good sec config meta acc x h)

/-- Every chunk produced by `processSection` is consistent. -/
theorem processSection_consistent (sec : PDFSection) (config : ChunkingConfig)
    (stats : ChunkingStats) (sq : Nat) (ch : ChunkData)
    (hch : ch ∈ (processSection sec config stats sq).1) : chunkConsistent ch := by
  have hacc : sectionAccGood ((splitIntoParagraphs sec.text).foldl
      (processSectionStep sec config (sectionMeta sec)) ⟨[], freshSeg sec, sq, stats⟩) :=
    processSection_foldl_good sec config (sectionMeta sec) (splitIntoParagraphs sec.text)
      ⟨[], freshSeg sec, sq, stats⟩
      ⟨fun c hc => absurd hc (List.not_mem_nil c), rfl, Or.inl rfl⟩
  rw [processSection] at hch
  split at hch
  · rcases List.mem_append.mp hch with hch | hch
    · exact hacc.1 ch hch
    · rw [List.mem_singleton] at hch
      subst hch
      exact createChunk_consistent _ (sectionMeta sec) _ hacc.2.1 hacc.2.2
  · exact hacc.1 ch hch

/-- The section-strategy fold only accumulates consistent chunks. -/
theorem chunkBySections_foldl_consistent (config : ChunkingConfig) :
    ∀ (secs : List PDFSection) (acc : SectionsAcc),
      (∀ ch ∈ acc.chunks, chunkConsistent ch) →
      ∀ ch ∈ (secs.foldl (fun (acc : SectionsAcc) (sec : PDFSection) =>
        ({ chunks := acc.chunks ++
             (processSection sec config
               { acc.stats with sectionsProcessed := acc.stats.sectionsProcessed + 1 }
               acc.seq).1,
           seq := acc.seq +
             (processSection sec config
               { acc.stats with sectionsProcessed := acc.stats.sectionsProcessed + 1 }
               acc.seq).1.length,
           stats := (processSection sec config
             { acc.stats with sectionsProcessed := acc.stats.sectionsProcessed + 1 }
             acc.seq).2 } : SectionsAcc)) acc).chunks, chunkConsistent ch
  | [], _, h => h
  | sec :: rest, acc, h => by
    rw [List.foldl_cons]
    refine chunkBySections_foldl_consistent config rest _ ?_
    intro ch hch
    rcases List.mem_append.mp hch with hch | hch
    · exact h ch hch
    · exact processSection_consistent sec config _ _ ch hch

/-- Every chunk produced by the section strategy is consistent: its token
count is the token count of its text. -/
theorem chunkBySections_consistent (pdf : ParsedPDF) (config : ChunkingConfig)
    (stats : ChunkingStats) (ch : ChunkData)
    (hch : ch ∈ (chunkBySections pdf config stats).1) : chunkConsistent ch := by
  rw [chunkBySections] at hch
  refine chunkBySections_foldl_consistent config pdf.sections ⟨[], 0, stats⟩ ?_ ch ?_
  · intro c hc
    exact absurd hc (List.not_mem_nil c)
  · exact hch

/-- One step of the page-strategy paragraph loop preserves the invariant. -/
theorem chunkByPagesStep_good (config : ChunkingConfig) (pg : PDFPage)
    (acc : PageAcc) (p : String) (h : pageAccGood acc) :
    pageAccGood (chunkByPagesStep config pg acc p) := by
  obtain ⟨hc, ht, htf⟩ := h
  have hflush : chunkConsistent (createChunk acc.cur (pagesMeta acc.cur) acc.seq) :=
    createChunk_consistent _ (pagesMeta acc.cur) _ ht htf
  simp only [chunkByPagesStep]
  by_cases hemp : jsTrim p = ""
  · rw [if_pos hemp]
    exact ⟨hc, ht, htf⟩
  · rw [if_neg hemp]
    have htp : trimFix (jsTrim p) := ⟨hemp, jsTrim_idem p⟩
    by_cases hbig : countTokens (jsTrim p) > config.maxTokens
    · rw [if_pos hbig]
      by_cases hmin : acc.cur.tokenCount ≥ config.minTokens
      · rw [if_pos hmin]
        refine ⟨?_, rfl, Or.inl rfl⟩
        intro ch hch
        rcases List.mem_append.mp hch with hch | hch
        · rcases List.mem_append.mp hch with hch | hch
          · exact hc ch hch
          · rw [List.mem_singleton] at hch
            subst hch
            exact hflush
        · exact splitLargeParagraph_consistent _ _ _ _ _ htp ch hch
      · rw [if_neg hmin]
        refine ⟨?_, rfl, Or.inl rfl⟩
        intro ch hch
        rcases List.mem_append.mp hch with hch | hch
        · exact hc ch hch
        · exact splitLargeParagraph_consistent _ _ _ _ _ htp ch hch
    · rw [if_neg hbig]
      by_cases hpos : acc.cur.tokenCount > 0
      · have hcne : acc.cur.text ≠ "" := by
          intro he
          rw [ht, he] at hpos
          exact absurd hpos (by decide)
        rw [if_pos hpos]
        split
        · by_cases hmin : acc.cur.tokenCount ≥ config.minTokens
          · rw [if_pos hmin]
            refine ⟨?_, rfl, Or.inr htp⟩
            intro ch hch
            rcases List.mem_append.mp hch with hch | hch
            · exact hc ch hch
            · rw [List.mem_singleton] at hch
              subst hch
              exact hflush
          · rw [if_neg hmin]
            exact ⟨hc, rfl, Or.inr htp⟩
        · exact ⟨hc, rfl, Or.inr (trimFix_append acc.cur.text PARA_SEP (jsTrim p)
            (htf.resolve_left hcne) htp)⟩
      · have hz : acc.cur.text = "" := by
          have h0 : acc.cur.tokenCount = 0 := by omega
          rw [h0] at ht
          exact (countTokens_eq_zero acc.cur.text).mp ht.symm
        have hnne : ¬ acc.cur.text ≠ "" := fun hne => hne hz
        rw [if_neg hpos]
        split
        · by_cases hmin : acc.cur.tokenCount ≥ config.minTokens
          · rw [if_pos hmin]
            refine ⟨?_, rfl, Or.inr htp⟩
            intro ch hch
            rcases List.mem_append.mp hch with hch | hch
            · exact hc ch hch
            · rw [List.mem_singleton] at hch
              subst hch
              exact hflush
          · rw [if_neg hmin]
            exact ⟨hc, rfl, Or.inr htp⟩
        · exact ⟨hc, rfl, Or.inr htp⟩

/-- Fold form of `chunkByPagesStep_good` over one page's paragraphs. -/
theorem chunkByPages_inner_foldl_good (config : ChunkingConfig) (pg : PDFPage) :
    ∀ (ps : List String) (acc : PageAcc), pageAccGood acc →
      pageAccGood (ps.foldl (chunkByPagesStep config pg) acc)
  | [], acc, h => h
  | x :: xs, acc, h => by
    rw [List.foldl_cons]
    exact chunkByPages_inner_foldl_good config pg xs _
      (chunkByPagesStep_good config pg acc x h)

/-- The page-strategy outer fold preserves the invariant. -/
theorem chunkByPages_outer_foldl_good (config : ChunkingConfig) :
    ∀ (pgs : List PDFPage) (acc : PageAcc), pageAccGood acc →
      pageAccGood (pgs.foldl (fun acc pg =>
        (splitIntoParagraphs pg.text).foldl (chunkByPagesStep config pg) acc) acc)
  | [], acc, h => h
  | pg :: rest, acc, h => by
    rw [List.foldl_cons]
    exact chunkByPages_outer_foldl_good config rest _
      (chunkByPages_inner_foldl_good config pg (splitIntoParagraphs pg.text) acc h)

/-- Every chunk produced by the page strategy is consistent: its token
count is the token count of its text. -/
theorem chunkByPages_consistent (pdf : ParsedPDF) (config : ChunkingConfig)
    (stats : ChunkingStats) (ch : ChunkData)
    (hch : ch ∈ (chunkByPages pdf config stats).1) : chunkConsistent ch := by
  have hacc : pageAccGood (pdf.pages.foldl (fun acc pg =>
      (splitIntoParagraphs pg.text).foldl (chunkByPagesStep config pg) acc)
      ⟨[], ⟨"", 0, [], none⟩, 0, stats⟩) :=
    chunkByPages_outer_foldl_good config pdf.pages ⟨[], ⟨"", 0, [], none⟩, 0, stats⟩
      ⟨fun c hc => absurd hc (List.not_mem_nil c), rfl, Or.inl rfl⟩
  rw [chunkByPages] at hch
  split at hch
  · rcases List.mem_append.mp hch with hch | hch
    · exact hacc.1 ch hch
    · rw [List.mem_singleton] at hch
      subst hch
      exact createChunk_consistent _ _ _ hacc.2.1 hacc.2.2
  · exact hacc.1 ch hch

/-- Witness for C4 amended: a single page whose text is one three-word
paragraph of 4 tokens under maxTokens 3. -/
theorem C4_amended_split_produces_output_witness :
    (chunkDocument smallSplitCfg smallSplitInput).success = true ∧
    1 ≤ (chunkDocument smallSplitCfg smallSplitInput).chunks.length ∧
    (chunkDocument smallSplitCfg smallSplitInput).stats.splitCount = 1 :=
  C4_amended_split_produces_output smallSplitCfg smallSplitInput
    { fullText := "aaaa bbbb cccc", pages := [smallSplitPage], headings := [], sections := [] }
    smallSplitPage "aaaa bbbb cccc" rfl (by decide) rfl rfl (by decide) (by decide)
    (by decide) (by decide)

/-! ## C3: forced append and merger pass-through -/

/-- C3: (1) in the paragraph reduction of `processSection`, when the
paragraph itself fits `maxTokens` but the combined count of the buffer and
the paragraph exceeds `maxTokens` while the buffer is below `minTokens`,
the paragraph is force-appended: no chunk is emitted and the buffer's text
becomes `buffer ++ "\n\n" ++ paragraph` with the combined (over-max) token
count.  (2) Every chunk entering the merger with a token count above
`maxTokens` (consistent with its text) appears unchanged in the merger's
output — it is never merged into, reduced or re-split.  (3) The
consistency premise of (2) is discharged by the pipeline itself: every
chunk either strategy feeds to the merger has a token count equal to the
token count of its text. -/
theorem C3_force_append_and_merger_passthrough :
    (∀ (sec : PDFSection) (config : ChunkingConfig) (meta : ChunkMetadata)
       (acc : SectionAcc) (p : String),
      jsTrim p ≠ "" →
      countTokens (jsTrim p) ≤ config.maxTokens →
      0 < acc.cur.tokenCount →
      acc.cur.text ≠ "" →
      config.maxTokens < countTokens (acc.cur.text ++ PARA_SEP ++ jsTrim p) →
      acc.cur.tokenCount < config.minTokens →
      (processSectionStep sec config meta acc p).chunks = acc.chunks ∧
      (processSectionStep sec config meta acc p).cur.text =
        acc.cur.text ++ PARA_SEP ++ jsTrim p ∧
      (processSectionStep sec config meta acc p).cur.tokenCount =
        countTokens (acc.cur.text ++ PARA_SEP ++ jsTrim p) ∧
      config.maxTokens < (processSectionStep sec config meta acc p).cur.tokenCount) ∧
    (∀ (chunks : List ChunkData) (config : ChunkingConfig) (stats : ChunkingStats)
       (ch : ChunkData),
      config.minTokens ≤ config.maxTokens →
      ch.tokenCount = countTokens ch.text →
      config.maxTokens < ch.tokenCount →
      ch ∈ chunks →
      ch ∈ (mergeSmallChunks chunks config stats).1) ∧
    (∀ (pdf : ParsedPDF) (config : ChunkingConfig) (stats : ChunkingStats)
       (ch : ChunkData),
      ch ∈ (chunkBySections pdf config stats).1 ∨ ch ∈ (chunkByPages pdf config stats).1 →
      ch.tokenCount = countTokens ch.text) := by
  refine ⟨?_, ?_, ?_⟩
  · intro sec config meta acc p htp hpt hcur0 htext hct hmin
    have hnotbig : ¬ config.maxTokens < countTokens (jsTrim p) := not_lt.mpr hpt
    have hnotmin : ¬ config.minTokens ≤ acc.cur.tokenCount := not_le.mpr hmin
    simp only [processSectionStep]
    rw [if_neg htp]
    simp only [hnotbig, if_false]
    simp only [hcur0, if_pos]
    rw [if_pos hct]
    rw [if_neg hnotmin]
    rw [if_pos htext]
    exact ⟨rfl, rfl, rfl, hct⟩
  · intro chunks config stats ch hmm hcons hbig hmem
    exact mergeSmallChunks_passthrough chunks config stats ch hmm hcons hbig hmem
  · intro pdf config stats ch hch
    rcases hch with hch | hch
    · exact chunkBySections_consistent pdf config stats ch hch
    · exact chunkByPages_consistent pdf config stats ch hch

/-- Witness for C3: a concrete force-append step (1-token buffer below
minTokens 3, 18-character paragraph of 5 tokens within maxTokens 5,
combined count 6 over maxTokens), a concrete merger run in which the
8-token chunk (maxTokens 5) passes through, and the consistency of the
concrete chunk the page strategy produces on `plainPdf`. -/
theorem C3_force_append_and_merger_passthrough_witness :
    ((processSectionStep forceSec forceCfg {} forceAcc forcePara).chunks = forceAcc.chunks ∧
     (processSectionStep forceSec forceCfg {} forceAcc forcePara).cur.text =
       forceAcc.cur.text ++ PARA_SEP ++ jsTrim forcePara ∧
     (processSectionStep forceSec forceCfg {} forceAcc forcePara).cur.tokenCount =
       countTokens (forceAcc.cur.text ++ PARA_SEP ++ jsTrim forcePara) ∧
     forceCfg.maxTokens <
       (processSectionStep forceSec forceCfg {} forceAcc forcePara).cur.tokenCount) ∧
    bigChunk ∈ (mergeSmallChunks [bigChunk, smallChunk] forceCfg initialStats).1 ∧
    consChunk.tokenCount = countTokens consChunk.text :=
  ⟨C3_force_append_and_merger_passthrough.1 forceSec forceCfg {} forceAcc forcePara
     (by decide) (by decide) (by decide) (by decide) (by decide) (by decide),
   C3_force_append_and_merger_passthrough.2.1 [bigChunk, smallChunk] forceCfg initialStats
     bigChunk (by decide) (by decide) (by decide) (by decide),
   C3_force_append_and_merger_passthrough.2.2 plainPdf DEFAULT_CHUNKING_CONFIG initialStats
     consChunk (Or.inr (by decide))⟩

end TeacherHelper
